import Mathlib

/-!
Verification of the curses progress dashboard in
`wordfence/cli/scan/progress.py`: the box abstraction, the greedy
row-packing layout (`BoxLayout`), the scrolling log panel (`LogBox`) and
the display controller (`ProgressDisplay`).

The definitions below are a shallow embedding of the Python source:
Python's unbounded machine integers become `Int`, the float elapsed time
of `_compute_rate` is idealized as an exact rational, raising code
returns `Except`, and curses side effects are recorded as explicit
operation traces (`TermOp`) or state updates on an explicit display
record.
-/

set_option autoImplicit false

namespace ScanProgress

/-- Exceptions raised by the progress module: the three sizing-error
`ProgressException`s, and Python's `AttributeError` (raised when an
attribute that was never assigned is read). -/
inductive PErr where
  | insufficientColumns
  | insufficientLines
  | insufficientLogSpace
  | attributeError
  deriving DecidableEq, Repr

/-- `Position = namedtuple('Position', ['y', 'x'])`. -/
structure Position where
  y : Int
  x : Int
  deriving DecidableEq, Repr

/-- `LayoutProperties`: snapshot of the layout state handed to
`resize_for_layout`. -/
structure LayoutProperties where
  lines : Int
  current_line : Int
  max_row_width : Int
  deriving DecidableEq, Repr

/-- `os.terminal_size` as used by the module. -/
structure TermSize where
  lines : Int
  columns : Int
  deriving DecidableEq, Repr

/-! ## Rate computation (`ProgressDisplay._compute_rate`) -/

/-- Python `int()` applied to an exact rational: truncation toward zero. -/
def pyint (q : ℚ) : Int := if 0 ≤ q then ⌊q⌋ else ⌈q⌉

/-- `ProgressDisplay._compute_rate`: `int(value / elapsed_time)` when
`elapsed_time > 0`, else `0`.  The float `elapsed_time` is idealized as
an exact rational. -/
def ProgressDisplay.compute_rate (value : Int) (elapsed_time : ℚ) : Int :=
  if 0 < elapsed_time then pyint ((value : ℚ) / elapsed_time) else 0

/-! ## The display registry, signal handler and teardown
(`_displays`, `reset_terminal`, `resize_terminal`, `ProgressDisplay`) -/

/-- Curses / drawing operations a `ProgressDisplay` method can perform,
in order.  The async signal path must perform none of these. -/
inductive TermOp where
  | reflowLayout
  | resizeTerm
  | eraseScreen
  | refreshScreen
  | resizeWindow
  | updateContent
  | noutRefresh
  | doUpdate
  | endWin
  | drawMetrics
  deriving DecidableEq, Repr

/-- The mutable state of one `ProgressDisplay` instance.  `id` stands for
Python object identity (used by `_displays.remove(self)`);
`in_raw_mode` records whether this display's curses session still has the
terminal in raw mode (`curses.endwin` restores normal mode). -/
structure Display where
  id : Nat
  worker_count : Int
  results_message : Option (List Char)
  pending_resize : Bool
  in_raw_mode : Bool
  terminal_size : TermSize
  deriving DecidableEq, Repr

/-- `ProgressDisplay.queue_resize`: `self.pending_resize = True`. -/
def ProgressDisplay.queue_resize (d : Display) : Display :=
  { d with pending_resize := true }

/-- `resize_terminal(signalnum, frame)` — the SIGWINCH handler: iterate the
registry calling `queue_resize` on each display.  The loop performs no
curses calls, hence the empty `TermOp` trace. -/
def resize_terminal (displays : List Display) : List Display × List TermOp :=
  (displays.map ProgressDisplay.queue_resize, [])

/-- `ProgressDisplay.end`: `curses.endwin()` (terminal back to normal
mode) for this display. The registry removal is modelled in
`reset_terminal_loop`. -/
def ProgressDisplay.endDisplay (d : Display) : Display × List TermOp :=
  ({ d with in_raw_mode := false }, [TermOp.endWin])

/-- `_displays.remove(self)`: remove the first occurrence (by identity). -/
def removeById (i : Nat) : List Display → List Display
  | [] => []
  | d :: ds => if d.id = i then ds else d :: removeById i ds

/-- Termination helper for `reset_terminal_loop`: removal never lengthens
the registry. -/
theorem removeById_length_le (i : Nat) (ds : List Display) :
    (removeById i ds).length ≤ ds.length := by
  induction ds with
  | nil => simp [removeById]
  | cons d ds ih =>
      simp only [removeById]
      split
      · simp
      · simpa using Nat.succ_le_succ ih

/-- `reset_terminal`'s `for display in _displays: display.end()`, with
CPython's index-based list iteration made explicit: `display.end()`
removes the current element from the very list being iterated, so the
iterator's advancing index skips the element that slid into the current
slot.  Returns the registry left behind and the displays that were
actually ended. -/
def reset_terminal_loop (displays : List Display) (i : Nat)
    (ended : List Display) : List Display × List Display :=
  if h : i < displays.length then
    let d := displays.get ⟨i, h⟩
    let d' := (ProgressDisplay.endDisplay d).1
    reset_terminal_loop (removeById d.id displays) (i + 1) (ended ++ [d'])
  else
    (displays, ended)
termination_by displays.length - i
decreasing_by
  have hle := removeById_length_le (displays.get ⟨i, h⟩).id displays
  omega

/-- `reset_terminal()`: end every display in the registry (as the loop
actually executes). -/
def reset_terminal (displays : List Display) : List Display × List Display :=
  reset_terminal_loop displays 0 []

/-- What a raised Python exception looks like to the caller of
`handle_update`. -/
inductive ExcMessage where
  | renderingProgressUpdateFailed
  | failedToAdjustToNewSize
  deriving DecidableEq, Repr

/-- The original cause attached via `raise ... from e`. -/
inductive ExcCause where
  | renderingException
  deriving DecidableEq, Repr

/-- A raised `ProgressException` with its `__cause__`. -/
structure Raised where
  message : ExcMessage
  cause : Option ExcCause
  deriving DecidableEq, Repr

/-- `ProgressDisplay.handle_update`, entered after the initial
`_resize_if_necessary()` call (no resize pending in the scenario of
interest): `try: self._display_metrics(update); self.refresh() except
Exception as e: reset_terminal(); raise ProgressException(...) from e`.
`render_fails` says whether the rendering body raises; on failure the
handler first runs `reset_terminal()` over the registry, then raises a
`ProgressException` whose cause is the original exception. -/
def ProgressDisplay.handle_update (displays : List Display)
    (render_fails : Bool) : List Display × Option Raised :=
  if render_fails then
    ((reset_terminal displays).1,
      some { message := ExcMessage.renderingProgressUpdateFailed,
             cause := some ExcCause.renderingException })
  else
    (displays, none)

/-! ## BoxLayout

Boxes, as `BoxLayout` sees them, expose `resize_for_layout`,
`compute_size` and `set_position`.  `MetricBox` and `BannerBox` have
fixed content sizes and inherit the no-op `resize_for_layout`; `LogBox`
reassigns its columns/lines from the layout properties (and raises when
fewer than 3 lines remain). -/

/-- A box as `BoxLayout` manipulates it. -/
inductive LBox where
  | fixed (height width : Int) (border : Bool)
  | log (columns lines : Int)
  deriving DecidableEq, Repr

def LBox.border : LBox → Bool
  | .fixed _ _ b => b
  | .log _ _ => true

/-- `get_height` (content height, no border). -/
def LBox.get_height : LBox → Int
  | .fixed h _ _ => h
  | .log _ l => l

/-- `get_width` (content width, no border). -/
def LBox.get_width : LBox → Int
  | .fixed _ w _ => w
  | .log c _ => c

/-- `Box.compute_size`: `(height, width)`, each + 2 when bordered. -/
def LBox.compute_size (b : LBox) : Int × Int :=
  if b.border then (b.get_height + 2, b.get_width + 2)
  else (b.get_height, b.get_width)

/-- `Box.resize_for_layout` (default: no-op) /
`LogBox.resize_for_layout`: columns := max_row_width - 2,
lines := lines - current_line - 2, raising when fewer than 3 lines
remain. -/
def LBox.resize_for_layout (props : LayoutProperties) :
    LBox → Except PErr LBox
  | .fixed h w bo => .ok (.fixed h w bo)
  | .log _ _ =>
      let columns := props.max_row_width - 2
      let lines := props.lines - props.current_line - 2
      if lines < 3 then .error .insufficientLogSpace
      else .ok (.log columns lines)

/-- The scalar state of a `BoxLayout` (its content list is passed
separately). -/
structure BoxLayoutSt where
  lines : Int
  cols : Int
  padding : Int
  current_line : Int
  max_row_width : Int
  deriving DecidableEq, Repr

/-- `BoxLayout.get_layout_properties`. -/
def BoxLayoutSt.get_layout_properties (st : BoxLayoutSt) : LayoutProperties :=
  { lines := st.lines, current_line := st.current_line,
    max_row_width := st.max_row_width }

/-- Python `int(a / b)` on integers: exact division truncated toward
zero (the magnitudes in the layout keep the float division exact). -/
def pyintdiv (a b : Int) : Int := Int.tdiv a b

/-- Python `round(k / 2)`: round, halves to even (banker's rounding);
`/` and `%` here are Euclidean (= floor, for the positive divisor 2). -/
def pyround_half (k : Int) : Int :=
  if k % 2 = 0 then k / 2
  else if (k / 2) % 2 = 0 then k / 2
  else k / 2 + 1

/-- Accumulator of the first loop in `BoxLayout._position_row`. -/
structure RowAcc where
  positioned : List (LBox × Int × Int)
  extra : List LBox
  row_width : Int
  unpadded_row_width : Int
  row_height : Int
  deriving DecidableEq, Repr

/-- First loop of `_position_row`: greedily decide, box by box, who joins
the current row (`positioned`, with computed height/width) and who spills
to the next (`extra`); raise `Insufficient columns available` when the
first box of a row already overflows. -/
def fillRow (st : BoxLayoutSt) : List LBox → RowAcc → Except PErr RowAcc
  | [], acc => .ok acc
  | b :: rest, acc =>
      match b.resize_for_layout st.get_layout_properties with
      | .error e => .error e
      | .ok b =>
          let hw := b.compute_size
          let required_width := hw.2 + st.padding
          if acc.positioned.length ≠ 0 ∧
              (acc.extra.length ≠ 0 ∨
                acc.row_width + required_width > st.cols) then
            fillRow st rest { acc with extra := acc.extra ++ [b] }
          else
            let rw := acc.row_width + required_width
            if rw > st.cols then .error .insufficientColumns
            else
              fillRow st rest
                { acc with
                  row_width := rw,
                  unpadded_row_width := acc.unpadded_row_width + hw.2,
                  row_height := max acc.row_height hw.1,
                  positioned := acc.positioned ++ [(b, hw.1, hw.2)] }

/-- Second loop of `_position_row`: place the positioned boxes
left-to-right starting at `x`, each vertically centered against the
row's tallest box; also accumulate `final_row_width`.  Returns the
placements `(box, Position y x)` and the final row width. -/
def placeRow (current_line row_height padding2 : Int) :
    List (LBox × Int × Int) → Int → Int → Int →
      List (LBox × Position) × Int
  | [], _x, frw, _prev => ([], frw)
  | (b, h, w) :: rest, x, frw, prev =>
      let frw1 := frw + prev
      let y := current_line + pyround_half (row_height - h)
      let r := placeRow current_line row_height padding2 rest
        (x + w + padding2) (frw1 + w) padding2
      ((b, { y := y, x := x }) :: r.1, r.2)

/-- `BoxLayout._position_row`: fill the row, check the vertical budget,
compute the centering padding, place the boxes, and advance
`current_line` / `max_row_width`.  Returns placements, the new layout
state and the spilled boxes. -/
def positionRow (st : BoxLayoutSt) (row : List LBox) :
    Except PErr (List (LBox × Position) × BoxLayoutSt × List LBox) :=
  match fillRow st row
      { positioned := [], extra := [], row_width := 0,
        unpadded_row_width := 0, row_height := 0 } with
  | .error e => .error e
  | .ok acc =>
      if st.current_line + acc.row_height > st.lines then
        .error .insufficientLines
      else
        let box_count : Int := acc.positioned.length
        let padding2 := pyintdiv (st.cols - acc.unpadded_row_width)
          (box_count + 1)
        let padded_width := acc.unpadded_row_width +
          padding2 * (box_count + 1)
        let x := padding2 + pyintdiv (st.cols - padded_width) 2
        let pr := placeRow st.current_line acc.row_height padding2
          acc.positioned x 0 0
        .ok (pr.1,
          { st with
            current_line := st.current_line + acc.row_height + st.padding,
            max_row_width := max st.max_row_width pr.2 },
          acc.extra)

/-- Termination helper: a successful `fillRow` distributes exactly the
input boxes over `positioned` and `extra`. -/
theorem fillRow_length (st : BoxLayoutSt) :
    ∀ (l : List LBox) (acc acc' : RowAcc),
      fillRow st l acc = .ok acc' →
      acc'.positioned.length + acc'.extra.length =
        acc.positioned.length + acc.extra.length + l.length := by
  intro l
  induction l with
  | nil =>
      intro acc acc' h
      simp only [fillRow] at h
      cases h
      simp
  | cons b rest ih =>
      intro acc acc' h
      simp only [fillRow] at h
      split at h
      · simp at h
      · split at h
        · have hrec := ih _ _ h
          simp at hrec ⊢
          omega
        · split at h
          · simp at h
          · have hrec := ih _ _ h
            simp at hrec ⊢
            omega

/-- Termination helper: `positioned` never shrinks. -/
theorem fillRow_positioned_le (st : BoxLayoutSt) :
    ∀ (l : List LBox) (acc acc' : RowAcc),
      fillRow st l acc = .ok acc' →
      acc.positioned.length ≤ acc'.positioned.length := by
  intro l
  induction l with
  | nil =>
      intro acc acc' h
      simp only [fillRow] at h
      cases h
      exact Nat.le_refl _
  | cons b rest ih =>
      intro acc acc' h
      simp only [fillRow] at h
      split at h
      · simp at h
      · split at h
        · have hrec := ih _ _ h
          exact hrec
        · split at h
          · simp at h
          · have hrec := ih _ _ h
            simp at hrec
            omega

/-- Termination helper: on a nonempty row, `_position_row` always places
at least the first box, so the spilled list is strictly shorter. -/
theorem positionRow_extra_length (st : BoxLayoutSt) (b : LBox)
    (rest : List LBox) (pl : List (LBox × Position)) (st' : BoxLayoutSt)
    (extra : List LBox)
    (h : positionRow st (b :: rest) = .ok (pl, st', extra)) :
    extra.length ≤ rest.length := by
  simp only [positionRow] at h
  split at h
  · simp at h
  next acc hfill =>
    split at h
    · simp at h
    · simp only [Except.ok.injEq, Prod.mk.injEq] at h
      obtain ⟨-, -, hextra⟩ := h
      subst hextra
      have hcount := fillRow_length st _ _ _ hfill
      -- the first box of a nonempty row is always placed
      have hpos : 1 ≤ acc.positioned.length := by
        simp only [fillRow] at hfill
        split at hfill
        · simp at hfill
        · split at hfill
          next hcond =>
            exfalso
            simp at hcond
          · split at hfill
            · simp at hfill
            · have hle := fillRow_positioned_le st _ _ _ hfill
              simp only [List.length_append, List.length_cons,
                List.length_nil] at hle
              omega
      simp only [List.length_cons, List.length_nil] at hcount
      omega

/-- The `while len(row): row = self._position_row(row)` loop closing
`BoxLayout.position`. -/
def positionFinish (st : BoxLayoutSt) (row : List LBox) :
    Except PErr (List (LBox × Position) × BoxLayoutSt) :=
  match row with
  | [] => .ok ([], st)
  | b :: rest =>
      match hpr : positionRow st (b :: rest) with
      | .error e => .error e
      | .ok (pl, st', extra) =>
          match positionFinish st' extra with
          | .error e => .error e
          | .ok (pl', st'') => .ok (pl ++ pl', st'')
termination_by row.length
decreasing_by
  exact Nat.lt_succ_of_le (positionRow_extra_length st b rest _ _ _ hpr)

/-- `BoxLayout.position`: walk the content list, closing the current row
at each break marker (`none`); spilled boxes join the items after the
break; finish with the trailing while-loop. -/
def positionGo (st : BoxLayoutSt) :
    List (Option LBox) → List LBox →
      Except PErr (List (LBox × Position) × BoxLayoutSt)
  | [], row => positionFinish st row
  | none :: items, row =>
      match positionRow st row with
      | .error e => .error e
      | .ok (pl, st', extra) =>
          match positionGo st' items extra with
          | .error e => .error e
          | .ok (pl', st'') => .ok (pl ++ pl', st'')
  | some b :: items, row => positionGo st items (row ++ [b])

/-- `BoxLayout.position` run from a freshly constructed (or freshly
`reset`) layout: `current_line = 0`, `max_row_width = 0`.  The
placements are returned in content order. -/
def BoxLayout.position (lines cols padding : Int)
    (content : List (Option LBox)) :
    Except PErr (List (LBox × Position) × BoxLayoutSt) :=
  positionGo
    { lines := lines, cols := cols, padding := padding,
      current_line := 0, max_row_width := 0 } content []

/-- Write the (possibly `resize_for_layout`-updated) boxes of the
placement list back into the content list, preserving break markers. -/
def updateBoxes : List (Option LBox) → List LBox → List (Option LBox)
  | [], _ => []
  | none :: rest, bs => none :: updateBoxes rest bs
  | some b :: rest, [] => some b :: updateBoxes rest []
  | some _ :: rest, b :: bs => some b :: updateBoxes rest bs

/-- `BoxLayout.resize(lines, cols)`: set the new extents, `reset()` (zero
the cursor and max row width, forget positions) and replay
`position()`.  Returns the content list with the updated boxes, the
placements, and the final layout state. -/
def BoxLayout.resize (lines cols padding : Int)
    (content : List (Option LBox)) :
    Except PErr
      (List (Option LBox) × List (LBox × Position) × BoxLayoutSt) :=
  match BoxLayout.position lines cols padding content with
  | .error e => .error e
  | .ok (pl, st) => .ok (updateBoxes content (pl.map Prod.fst), pl, st)

/-- `ProgressDisplay.resize`: measure the new size and record it (the
assignment precedes any possible raise), then reflow the layout
(`self.layout.resize`, which can raise a sizing `ProgressException`)
before `curses.resizeterm` when the new width is smaller and after it
otherwise; then `update_content` and `refresh` (noutrefresh +
doupdate).  The controller's layout is passed as its content list and
padding.  Returns the ordered trace of operations actually performed,
the display state after the call, and either the reflowed content or
the sizing error that aborted the call (propagating before
`curses.resizeterm` on the shrink path, after the surface operations on
the grow path). -/
def ProgressDisplay.resize (d : Display) (content : List (Option LBox))
    (padding : Int) (measured : TermSize) :
    List TermOp × Display × Except PErr (List (Option LBox)) :=
  let smaller := measured.columns < d.terminal_size.columns
  let d' := { d with terminal_size := measured }
  if smaller then
    match BoxLayout.resize measured.lines measured.columns padding
        content with
    | .error e => ([], d', .error e)
    | .ok (content', _pl, _st) =>
        ([TermOp.reflowLayout, TermOp.resizeTerm, TermOp.eraseScreen,
          TermOp.refreshScreen, TermOp.resizeWindow, TermOp.updateContent,
          TermOp.noutRefresh, TermOp.doUpdate], d', .ok content')
  else
    match BoxLayout.resize measured.lines measured.columns padding
        content with
    | .error e =>
        ([TermOp.resizeTerm, TermOp.eraseScreen, TermOp.refreshScreen,
          TermOp.resizeWindow], d', .error e)
    | .ok (content', _pl, _st) =>
        ([TermOp.resizeTerm, TermOp.eraseScreen, TermOp.refreshScreen,
          TermOp.resizeWindow, TermOp.reflowLayout, TermOp.updateContent,
          TermOp.noutRefresh, TermOp.doUpdate], d', .ok content')

/-! ## LogBox -/

/-- Modelled from the spec: `wordfence.util.unicode.filter_control_characters`
is imported from outside this repository's sources; the spec says
`add_message` strips control characters before storing a message. -/
def filter_control_characters (message : List Char) : List Char :=
  message.filter fun c => decide (32 ≤ c.toNat ∧ c.toNat ≠ 127)

/-- `DEFAULT_MAX_MESSAGES = 512`. -/
def DEFAULT_MAX_MESSAGES : Int := 512

/-- The state of a `LogBox`.  `cursor_offset` is `none` while the
attribute has never been assigned (reading it raises `AttributeError`);
once `draw_content` assigns it, it holds the `Optional[Position]` the
Python code guards against. -/
structure LogBox where
  columns : Int
  lines : Int
  messages : List (List Char)
  messages_maxlen : Option Int
  cursor_position : Option Position
  cursor_offset : Option (Option Position)
  position : Option Position
  border : Bool
  deriving DecidableEq, Repr

/-- `LogBox._determine_max_messages`. -/
def LogBox.determine_max_messages (lines : Int) (max_messages : Int) :
    Option Int :=
  if max_messages < 0 then none
  else if max_messages = 0 then some (max lines DEFAULT_MAX_MESSAGES)
  else some max_messages

/-- `LogBox.__init__`: note that it assigns `cursor_position` but never
`cursor_offset`. -/
def LogBox.new (columns lines max_messages : Int) : LogBox :=
  { columns := columns, lines := lines, messages := [],
    messages_maxlen := LogBox.determine_max_messages lines max_messages,
    cursor_position := none, cursor_offset := none, position := none,
    border := true }

/-- `collections.deque.append` with a `maxlen`: once full, the oldest
(leftmost) entry is discarded. -/
def dequeAppend (maxlen : Option Int) (xs : List (List Char))
    (x : List Char) : List (List Char) :=
  let ys := xs ++ [x]
  match maxlen with
  | none => ys
  | some m => ys.drop (ys.length - m.toNat)

/-- Python `s[:c]` on a character list (a negative `c` counts from the
end; out-of-range indices clamp). -/
def pySliceTo (c : Int) (l : List Char) : List Char :=
  if 0 ≤ c then l.take c.toNat else l.take (l.length - (-c).toNat)

/-- Python `s[c:]` on a character list. -/
def pySliceFrom (c : Int) (l : List Char) : List Char :=
  if 0 ≤ c then l.drop c.toNat else l.drop (l.length - (-c).toNat)

/-- The inner `while len(message)` loop of `_map_messages_to_lines`:
slice off `columns`-wide lines until the message is consumed or the
remaining line budget hits zero.  The budget is a `Nat`: on a negative
budget the Python loop would never terminate, so the model covers the
nonnegative budgets the program uses. -/
def wrapGo (cols : Int) : List Char → Nat → List (List Char) →
    List (List Char) × Nat
  | [], rem, acc => (acc, rem)
  | _ :: _, 0, acc => (acc, 0)
  | c :: cs, rem + 1, acc =>
      wrapGo cols (pySliceFrom cols (c :: cs)) rem
        (acc ++ [pySliceTo cols (c :: cs)])

/-- `for line in reversed(message_lines): lines.appendleft(line)` on a
deque with `maxlen` (appendleft discards from the right when full). -/
def appendLeftAll (maxlen : Int) (message_lines lns : List (List Char)) :
    List (List Char) :=
  message_lines.foldr (fun line acc => (line :: acc).take maxlen.toNat) lns

/-- The outer loop of `_map_messages_to_lines`: walk the messages newest
to oldest, wrap each, and prepend its lines. -/
def mmtlGo (cols maxlen : Int) : List (List Char) → Nat →
    List (List Char) → List (List Char)
  | [], _, lns => lns
  | msg :: older, rem, lns =>
      if rem = 0 then lns
      else
        let wr := wrapGo cols msg rem []
        mmtlGo cols maxlen older wr.2 (appendLeftAll maxlen wr.1 lns)

/-- `LogBox._map_messages_to_lines` (its `offset` parameter is unused in
the source too).  `remaining_lines` starts at `self.lines`, and the
`lines` deque carries `maxlen=self.lines`. -/
def LogBox.map_messages_to_lines (b : LogBox) (_offset : Int) :
    List (List Char) :=
  mmtlGo b.columns b.lines b.messages.reverse b.lines.toNat []

/-- The drawing loop of `LogBox.draw_content`, tracking
`(last_line_number, last_line_length)`; `addstr` is modelled as
succeeding. -/
def drawLoop : List (List Char) → Int → Int × Int → Int × Int
  | [], _, last => last
  | line :: rest, line_number, _ =>
      drawLoop rest (line_number + 1) (line_number, line.length)

/-- `LogBox.draw_content`: draw the wrapped lines and record
`cursor_offset = Position(last_line_number, last_line_length)`. -/
def LogBox.draw_content (b : LogBox) : LogBox :=
  let offset : Int := if b.border then 1 else 0
  let last := drawLoop (b.map_messages_to_lines offset) offset (offset, 0)
  { b with cursor_offset := some (some { y := last.1, x := last.2 }) }

/-- `LogBox.add_message`: filter control characters, append to the
bounded deque, then `update()` (which re-renders, running
`draw_content`). -/
def LogBox.add_message (b : LogBox) (message : List Char) : LogBox :=
  let b' := { b with
    messages := dequeAppend b.messages_maxlen b.messages
      (filter_control_characters message) }
  b'.draw_content

/-- `LogBox.get_cursor_position`: reading `self.cursor_offset` raises
`AttributeError` if `draw_content` has never assigned it; otherwise sum
the box position (when set) and the cursor offset (when set). -/
def LogBox.get_cursor_position (b : LogBox) : Except PErr Position :=
  match b.cursor_offset with
  | none => .error .attributeError
  | some co =>
      let y : Int := 0
      let x : Int := 0
      let yx :=
        match b.position with
        | some p => (y + p.y, x + p.x)
        | none => (y, x)
      let yx2 :=
        match co with
        | some o => (yx.1 + o.y, yx.2 + o.x)
        | none => yx
      .ok { y := yx2.1, x := yx2.2 }

/-- `LogBox.resize_for_layout` on the full log-box state: set
`columns = max_row_width - 2`, `lines = lines - current_line - 2`,
clear `cursor_position`, raise when fewer than 3 lines remain, else
return `True`. -/
def LogBox.resize_for_layout (b : LogBox) (properties : LayoutProperties) :
    Except PErr (LogBox × Bool) :=
  let b' := { b with
    columns := properties.max_row_width - 2,
    lines := properties.lines - properties.current_line - 2,
    cursor_position := none }
  if b'.lines < 3 then .error .insufficientLogSpace
  else .ok (b', true)

/-! ## Reference functions and checkers used to state the claims -/

/-- Spec-side reference for the wrapping claim: the consecutive
fixed-width slices of a message at width `c`, in order ("hard-wrap at
the box's column width", fixed-width slicing). -/
def chunks (c : Nat) (l : List Char) : List (List Char) :=
  if h : l = [] ∨ c = 0 then []
  else l.take c :: chunks c (l.drop c)
termination_by l.length
decreasing_by
  push_neg at h
  obtain ⟨hl, hc⟩ := h
  have : 0 < l.length := List.length_pos.mpr hl
  simp only [List.length_drop]
  omega

/-- Ceiling division on naturals, as used by the wrapping claim. -/
def ceilDiv (l c : Nat) : Nat := (l + c - 1) / c

/-- The rows `BoxLayout.position` processes (in order), assuming no box
spills: the segments of the content list delimited by break markers,
with a trailing empty segment skipped by the closing while-loop. -/
def processedRows : List (Option LBox) → List LBox → List (List LBox)
  | [], row => if row.isEmpty then [] else [row]
  | none :: items, row => row :: processedRows items []
  | some b :: items, row => processedRows items (row ++ [b])

/-- The height `_position_row` computes for a row: running maximum of the
boxes' computed heights, starting from 0. -/
def rowHeightOf (row : List LBox) : Int :=
  (row.map fun b => (LBox.compute_size b).1).foldl max 0

/-- The width `_position_row` accumulates for a row: each box's computed
width plus one padding. -/
def rowWidthOf (padding : Int) (row : List LBox) : Int :=
  (row.map fun b => (LBox.compute_size b).2 + padding).sum

/-- Vertical-budget checker: replays the `current_line + row_height >
lines` check and the `current_line += row_height + padding` advance of
`_position_row` over the given rows. -/
def vertFits (lines padding : Int) : Int → List (List LBox) → Bool
  | _, [] => true
  | cur, r :: rs =>
      decide (cur + rowHeightOf r ≤ lines) &&
        vertFits lines padding (cur + rowHeightOf r + padding) rs

/-- A statically sized box (default `resize_for_layout`) with
nonnegative content dimensions. -/
def staticNonneg : LBox → Bool
  | .fixed h w _ => decide (0 ≤ h) && decide (0 ≤ w)
  | .log _ _ => false

/-- Forget the `LogBox`'s dynamically assigned dimensions (they are
rewritten by `resize_for_layout` before any use in a layout pass). -/
def eraseDyn : LBox → LBox
  | .fixed h w b => .fixed h w b
  | .log _ _ => .log 0 0

/-- A live display whose curses session has the terminal in raw mode. -/
def displayA : Display :=
  { id := 0, worker_count := 1, results_message := none,
    pending_resize := false, in_raw_mode := true,
    terminal_size := { lines := 24, columns := 80 } }

/-- A second live display, also in raw mode. -/
def displayB : Display :=
  { id := 1, worker_count := 1, results_message := none,
    pending_resize := false, in_raw_mode := true,
    terminal_size := { lines := 24, columns := 80 } }

/-- Concrete log box holding the spec's 15-character example message. -/
def logBoxW : LogBox :=
  { columns := 10, lines := 3, messages := ["abcdefghijklmno".toList],
    messages_maxlen := none, cursor_position := none,
    cursor_offset := none, position := none, border := true }

/-! # Theorems -/

/-- C1: the claim says a rendering failure in `handle_update` first
restores the terminal to normal mode for every live display and only
then raises.  The code violates this: `reset_terminal` iterates
`_displays` while `display.end()` removes the current element from that
same list, so CPython's index-based iteration skips every second
display.  With two live displays, after the failing `handle_update` the
`ProgressException` (with the original cause attached) has propagated,
yet the second display is still registered and its terminal is still in
raw mode. -/
theorem claim_C1_render_failure_skips_second_display :
    (ProgressDisplay.handle_update [displayA, displayB] true).2 =
      some { message := ExcMessage.renderingProgressUpdateFailed,
             cause := some ExcCause.renderingException } ∧
    (ProgressDisplay.handle_update [displayA, displayB] true).1 =
      [displayB] ∧
    displayB.in_raw_mode = true := by
  refine ⟨rfl, ?_, rfl⟩
  simp [ProgressDisplay.handle_update, reset_terminal, reset_terminal_loop,
    ProgressDisplay.endDisplay, removeById, displayA, displayB]

/-- C7: for every layout-properties argument, `LogBox.resize_for_layout`
sets the visible column budget to `max_row_width - 2`, the line budget
to `lines - current_line - 2`, raises a sizing `ProgressException`
exactly when the resulting line budget is below 3, and otherwise
returns `True`. -/
theorem claim_C7_log_resize_for_layout (b : LogBox)
    (props : LayoutProperties) :
    (props.lines - props.current_line - 2 < 3 →
      b.resize_for_layout props = .error .insufficientLogSpace) ∧
    (3 ≤ props.lines - props.current_line - 2 →
      b.resize_for_layout props =
        .ok ({ b with columns := props.max_row_width - 2,
                      lines := props.lines - props.current_line - 2,
                      cursor_position := none }, true)) := by
  constructor
  · intro h
    simp only [LogBox.resize_for_layout]
    rw [if_pos h]
  · intro h
    simp only [LogBox.resize_for_layout]
    rw [if_neg (by omega)]

/-- C7 witness: a 10-line budget succeeds, a 4-line budget raises. -/
theorem claim_C7_witness :
    ((4 : Int) - 0 - 2 < 3 ∧
      (LogBox.new 1 1 1).resize_for_layout
          { lines := 4, current_line := 0, max_row_width := 8 } =
        .error .insufficientLogSpace) ∧
    (3 ≤ (10 : Int) - 0 - 2 ∧
      (LogBox.new 1 1 1).resize_for_layout
          { lines := 10, current_line := 0, max_row_width := 8 } =
        .ok ({ columns := 6, lines := 8, messages := [],
               messages_maxlen := some 1, cursor_position := none,
               cursor_offset := none, position := none,
               border := true }, true)) := by
  refine ⟨⟨by norm_num, ?_⟩, ⟨by norm_num, ?_⟩⟩
  · exact (claim_C7_log_resize_for_layout (LogBox.new 1 1 1)
      { lines := 4, current_line := 0, max_row_width := 8 }).1 (by norm_num)
  · exact (claim_C7_log_resize_for_layout (LogBox.new 1 1 1)
      { lines := 10, current_line := 0, max_row_width := 8 }).2 (by norm_num)

/-- C8: the computed rate is 0 when the elapsed time is 0, and
`floor(count / t)` when `t > 0`, for every count ≥ 0 (the float elapsed
time idealized as an exact rational). -/
theorem claim_C8_compute_rate (count : Int) (h : 0 ≤ count) :
    ProgressDisplay.compute_rate count 0 = 0 ∧
    ∀ t : ℚ, 0 < t →
      ProgressDisplay.compute_rate count t = ⌊(count : ℚ) / t⌋ := by
  constructor
  · simp [ProgressDisplay.compute_rate]
  · intro t ht
    have hq : 0 ≤ (count : ℚ) / t :=
      div_nonneg (by exact_mod_cast h) ht.le
    simp [ProgressDisplay.compute_rate, ht, pyint, hq]

/-- C8 witness: count 7 with elapsed times 0 and 2. -/
theorem claim_C8_witness :
    (0 ≤ (7 : Int)) ∧
    ProgressDisplay.compute_rate 7 0 = 0 ∧
    ProgressDisplay.compute_rate 7 2 = ⌊(7 : ℚ) / 2⌋ ∧
    ⌊(7 : ℚ) / 2⌋ = 3 := by
  refine ⟨by norm_num, (claim_C8_compute_rate 7 (by norm_num)).1,
    (claim_C8_compute_rate 7 (by norm_num)).2 2 (by norm_num), ?_⟩
  rw [Int.floor_eq_iff] <;> norm_num

/-- C9: the SIGWINCH handler only sets `pending_resize` on every
registered display — the registry keeps its length, every other field
of every display is unchanged, and the handler performs no drawing or
terminal-state operation (its operation trace is empty). -/
theorem claim_C9_signal_only_sets_pending (displays : List Display) :
    (resize_terminal displays).2 = [] ∧
    (resize_terminal displays).1.length = displays.length ∧
    ∀ i : Fin displays.length,
      (resize_terminal displays).1.get ⟨i.val, by simp [resize_terminal]⟩ =
        { displays.get i with pending_resize := true } := by
  refine ⟨rfl, by simp [resize_terminal], ?_⟩
  intro i
  simp [resize_terminal, ProgressDisplay.queue_resize]

/-- C9 witness: the handler applied to a concrete two-display registry. -/
theorem claim_C9_witness :
    (resize_terminal [displayA, displayB]).2 = [] ∧
    (resize_terminal [displayA, displayB]).1.length = 2 := by
  exact ⟨(claim_C9_signal_only_sets_pending [displayA, displayB]).1,
    (claim_C9_signal_only_sets_pending [displayA, displayB]).2.1⟩

/-- C10: `get_cursor_position` on a freshly constructed `LogBox` fails
with an `AttributeError` (the constructor assigns `cursor_position`,
never `cursor_offset`); after any `draw_content`, `cursor_offset` holds
an actual `Position` (never `None`) and `get_cursor_position` returns
the componentwise sum of the box's position (defaulting to `(0, 0)`)
and that offset. -/
theorem claim_C10_cursor_needs_first_draw (c l m : Int) (b : LogBox) :
    (LogBox.new c l m).get_cursor_position = .error .attributeError ∧
    ∃ o : Position,
      b.draw_content.cursor_offset = some (some o) ∧
      b.draw_content.get_cursor_position =
        .ok { y := (b.position.getD { y := 0, x := 0 }).y + o.y,
              x := (b.position.getD { y := 0, x := 0 }).x + o.x } := by
  constructor
  · rfl
  · refine ⟨_, rfl, ?_⟩
    cases hp : b.position <;>
      simp [LogBox.draw_content, LogBox.get_cursor_position, hp]

/-! ### C5: LogBox capacity -/

/-- `add_message` only appends to the message deque and re-renders:
its effect on `messages` is exactly a bounded append, and the capacity
never changes. -/
theorem add_message_messages (b : LogBox) (message : List Char) :
    (b.add_message message).messages =
      dequeAppend b.messages_maxlen b.messages
        (filter_control_characters message) ∧
    (b.add_message message).messages_maxlen = b.messages_maxlen := by
  constructor <;> rfl

/-- Folding `add_message` only folds the bounded append over `messages`. -/
theorem foldl_add_message_messages :
    ∀ (msgs : List (List Char)) (b : LogBox),
      (msgs.foldl LogBox.add_message b).messages =
        msgs.foldl
          (fun acc msg => dequeAppend b.messages_maxlen acc
            (filter_control_characters msg)) b.messages ∧
      (msgs.foldl LogBox.add_message b).messages_maxlen =
        b.messages_maxlen := by
  intro msgs
  induction msgs with
  | nil => intro b; exact ⟨rfl, rfl⟩
  | cons a ms ih =>
      intro b
      have hstep := add_message_messages b a
      have hrec := ih (b.add_message a)
      constructor
      · rw [List.foldl_cons, hrec.1, hstep.1, hstep.2, List.foldl_cons]
      · rw [List.foldl_cons, hrec.2, hstep.2]

/-- A bounded deque append from a within-capacity list keeps the oldest
entries only as capacity allows. -/
theorem foldl_dequeAppend (m : Int) :
    ∀ (msgs : List (List Char)) (xs : List (List Char)),
      xs.length ≤ m.toNat →
      msgs.foldl
          (fun acc msg => dequeAppend (some m) acc
            (filter_control_characters msg)) xs =
        (xs ++ msgs.map filter_control_characters).drop
          (xs.length + msgs.length - m.toNat) := by
  intro msgs
  induction msgs with
  | nil =>
      intro xs hxs
      simp only [List.foldl_nil, List.map_nil, List.append_nil,
        List.length_nil]
      rw [show xs.length + 0 - m.toNat = 0 from by omega, List.drop_zero]
  | cons a ms ih =>
      intro xs hxs
      rw [List.foldl_cons]
      have hd : dequeAppend (some m) xs (filter_control_characters a) =
          (xs ++ [filter_control_characters a]).drop
            (xs.length + 1 - m.toNat) := by
        simp [dequeAppend]
      have hxs' :
          (dequeAppend (some m) xs (filter_control_characters a)).length ≤
            m.toNat := by
        rw [hd]
        simp only [List.length_drop, List.length_append, List.length_cons,
          List.length_nil]
        omega
      obtain ⟨u, hu⟩ : ∃ u, u = xs ++ [filter_control_characters a] :=
        ⟨_, rfl⟩
      rw [ih _ hxs', hd, ← hu]
      rw [show xs ++ List.map filter_control_characters (a :: ms) =
          u ++ List.map filter_control_characters ms from by rw [hu]; simp]
      rw [List.drop_append_eq_append_drop, List.drop_drop,
        List.drop_append_eq_append_drop]
      have hulen : u.length = xs.length + 1 := by rw [hu]; simp
      congr 1
      · congr 1
        simp only [List.length_drop, hulen, List.length_cons]
        omega
      · congr 1
        simp only [List.length_drop, hulen, List.length_map,
          List.length_cons]
        omega

/-- C5: the message queue never exceeds its configured capacity: explicit
`max_messages = N > 0` gives capacity `N`, `max_messages = 0` gives
`max(lines, 512)`, a negative `max_messages` gives an unbounded queue;
and pushing `N + 1` messages into a fresh capacity-`N` box retains
exactly the `N` most recent messages in their original relative order. -/
theorem claim_C5_log_capacity :
    (∀ c l N : Int, 0 < N →
      (LogBox.new c l N).messages_maxlen = some N) ∧
    (∀ c l : Int,
      (LogBox.new c l 0).messages_maxlen =
        some (max l DEFAULT_MAX_MESSAGES)) ∧
    (∀ c l N : Int, N < 0 → (LogBox.new c l N).messages_maxlen = none) ∧
    (∀ (b : LogBox) (m : Int), b.messages_maxlen = some m →
      b.messages.length ≤ m.toNat →
      ∀ msgs : List (List Char),
        ((msgs.foldl LogBox.add_message b).messages).length ≤ m.toNat) ∧
    (∀ (c l N : Int), 0 < N → ∀ msgs : List (List Char),
      msgs.length = N.toNat + 1 →
      (msgs.foldl LogBox.add_message (LogBox.new c l N)).messages =
        (msgs.drop 1).map filter_control_characters) := by
  have hnew : ∀ c l N : Int, 0 < N →
      (LogBox.new c l N).messages_maxlen = some N := by
    intro c l N hN
    simp only [LogBox.new, LogBox.determine_max_messages]
    rw [if_neg (by omega), if_neg (by omega)]
  refine ⟨hnew, ?_, ?_, ?_, ?_⟩
  · intro c l
    simp [LogBox.new, LogBox.determine_max_messages]
  · intro c l N hN
    simp only [LogBox.new, LogBox.determine_max_messages]
    rw [if_pos hN]
  · intro b m hm hlen msgs
    have hfold := foldl_add_message_messages msgs b
    rw [hfold.1, hm, foldl_dequeAppend m msgs b.messages hlen]
    simp only [List.length_drop, List.length_append, List.length_map]
    omega
  · intro c l N hN msgs hmsgs
    have hfold := foldl_add_message_messages msgs (LogBox.new c l N)
    rw [hfold.1, hnew c l N hN]
    have hnil : (LogBox.new c l N).messages = [] := rfl
    rw [hnil, foldl_dequeAppend N msgs [] (by simp)]
    simp only [List.length_nil, List.nil_append, Nat.zero_add, hmsgs]
    rw [show N.toNat + 1 - N.toNat = 1 from by omega, List.map_drop]

/-- C5 witness: capacity 2, three messages pushed, the last two retained
in order. -/
theorem claim_C5_witness :
    (0 < (2 : Int)) ∧
    ([("a".toList), ("b".toList), ("c".toList)].length = (2 : Int).toNat + 1) ∧
    ((["a".toList, "b".toList, "c".toList].foldl LogBox.add_message
        (LogBox.new 5 2 2)).messages =
      ([("a".toList), ("b".toList), ("c".toList)].drop 1).map
        filter_control_characters) ∧
    (LogBox.new 5 2 2).messages_maxlen = some 2 := by
  refine ⟨by norm_num, by decide, ?_, ?_⟩
  · exact claim_C5_log_capacity.2.2.2.2 5 2 2 (by norm_num)
      ["a".toList, "b".toList, "c".toList] (by decide)
  · exact claim_C5_log_capacity.1 5 2 2 (by norm_num)

/-! ### C6: LogBox wrapping -/

theorem chunks_nil (c : Nat) : chunks c [] = [] := by
  rw [chunks]
  simp

theorem chunks_cons (c : Nat) (l : List Char) (hl : l ≠ []) (hc : c ≠ 0) :
    chunks c l = l.take c :: chunks c (l.drop c) := by
  rw [chunks]
  rw [dif_neg (by simp [hl, hc])]

theorem ceilDiv_zero (c : Nat) : ceilDiv 0 c = 0 := by
  cases c with
  | zero => rfl
  | succ n =>
      show (0 + (n + 1) - 1) / (n + 1) = 0
      rw [Nat.zero_add, Nat.succ_sub_one]
      exact Nat.div_eq_of_lt (Nat.lt_succ_self n)

theorem ceilDiv_pos (L c : Nat) (hc : 0 < c) (hL : 0 < L) :
    1 ≤ ceilDiv L c := by
  rw [ceilDiv, Nat.le_div_iff_mul_le hc]
  omega

theorem ceilDiv_one_of_le (L c : Nat) (h1 : 1 ≤ L) (h2 : L ≤ c) :
    ceilDiv L c = 1 := by
  have hc : 0 < c := by omega
  have hge := ceilDiv_pos L c hc (by omega)
  have hlt : ceilDiv L c < 2 := by
    rw [ceilDiv, Nat.div_lt_iff_lt_mul hc]
    omega
  omega

theorem ceilDiv_sub (L c : Nat) (hc : 0 < c) (hL : 1 ≤ L) :
    ceilDiv L c = ceilDiv (L - c) c + 1 := by
  rcases Nat.le_total L c with h | h
  · rw [ceilDiv_one_of_le L c hL h,
      show L - c = 0 from by omega, ceilDiv_zero]
  · rw [ceilDiv, ceilDiv,
      show L + c - 1 = (L - c + c - 1) + c from by omega,
      Nat.add_div_right _ hc]

/-- The fixed-width slices: count, width bound and concatenation. -/
theorem chunks_spec (c : Nat) (hc : 0 < c) :
    ∀ (n : Nat) (l : List Char), l.length ≤ n →
      (chunks c l).length = ceilDiv l.length c ∧
      (∀ s ∈ chunks c l, s.length ≤ c) ∧
      (chunks c l).flatten = l := by
  intro n
  induction n with
  | zero =>
      intro l hl
      have h0 : l = [] := by
        cases l with
        | nil => rfl
        | cons x xs => simp at hl
      subst h0
      simp [chunks_nil, ceilDiv_zero]
  | succ n ih =>
      intro l hl
      cases l with
      | nil => simp [chunks_nil, ceilDiv_zero]
      | cons x xs =>
          rw [chunks_cons c (x :: xs) (by simp) (by omega)]
          have hdrop : ((x :: xs).drop c).length ≤ n := by
            simp only [List.length_drop, List.length_cons]
            simp only [List.length_cons] at hl
            omega
          obtain ⟨ihlen, ihmem, ihjoin⟩ := ih _ hdrop
          refine ⟨?_, ?_, ?_⟩
          · simp only [List.length_cons, ihlen, List.length_drop]
            rw [ceilDiv_sub (xs.length + 1) c hc (by omega)]
          · intro s hs
            rw [List.mem_cons] at hs
            rcases hs with rfl | hs
            · rw [List.length_take]
              exact min_le_left _ _
            · exact ihmem s hs
          · rw [List.flatten_cons, ihjoin]
            exact List.take_append_drop c (x :: xs)

/-- `pySliceTo` / `pySliceFrom` at a positive width. -/
theorem pySlice_of_nonneg (c : Int) (hc : 0 ≤ c) (l : List Char) :
    pySliceTo c l = l.take c.toNat ∧ pySliceFrom c l = l.drop c.toNat := by
  constructor <;> simp [pySliceTo, pySliceFrom, hc]

/-- The inner wrap loop realizes the fixed-width slicing when the
budget suffices, and spends exactly `ceil(L / C)` of the budget. -/
theorem wrapGo_chunks (cols : Int) (hc : 0 < cols) :
    ∀ (rem : Nat) (msg : List Char) (acc : List (List Char)),
      ceilDiv msg.length cols.toNat ≤ rem →
      wrapGo cols msg rem acc =
        (acc ++ chunks cols.toNat msg,
          rem - ceilDiv msg.length cols.toNat) := by
  intro rem
  induction rem with
  | zero =>
      intro msg acc h
      have hct : 0 < cols.toNat := by omega
      have hmsg : msg = [] := by
        cases msg with
        | nil => rfl
        | cons x xs =>
            have := ceilDiv_pos (x :: xs).length cols.toNat hct (by simp)
            omega
      subst hmsg
      simp [wrapGo, chunks_nil, ceilDiv_zero]
  | succ r ih =>
      intro msg acc h
      have hct : 0 < cols.toNat := by omega
      cases msg with
      | nil => simp [wrapGo, chunks_nil, ceilDiv_zero]
      | cons x xs =>
          have hstep : wrapGo cols (x :: xs) (r + 1) acc =
              wrapGo cols (pySliceFrom cols (x :: xs)) r
                (acc ++ [pySliceTo cols (x :: xs)]) := rfl
          rw [hstep, (pySlice_of_nonneg cols hc.le (x :: xs)).1,
            (pySlice_of_nonneg cols hc.le (x :: xs)).2]
          have hsub := ceilDiv_sub (x :: xs).length cols.toNat hct (by simp)
          have hdroplen : ((x :: xs).drop cols.toNat).length =
              (x :: xs).length - cols.toNat := List.length_drop _ _
          rw [ih ((x :: xs).drop cols.toNat) (acc ++ [(x :: xs).take cols.toNat])
            (by rw [hdroplen]; omega)]
          rw [chunks_cons cols.toNat (x :: xs) (by simp) (by omega)]
          rw [Prod.mk.injEq]
          constructor
          · simp
          · rw [hdroplen]
            omega

/-- Prepending within the line deque's capacity keeps every line. -/
theorem appendLeftAll_of_le (m : Int) :
    ∀ (ml lns : List (List Char)),
      ml.length + lns.length ≤ m.toNat →
      appendLeftAll m ml lns = ml ++ lns := by
  intro ml
  induction ml with
  | nil => intro lns h; rfl
  | cons line ml' ih =>
      intro lns h
      simp only [appendLeftAll, List.foldr_cons] at ih ⊢
      rw [ih lns (by simp at h ⊢; omega)]
      rw [List.take_of_length_le (by simp at h ⊢; omega)]
      simp

/-- C6: with positive column width `C` and a line budget of at least
`ceil(L / C)`, wrapping the box's single message of length `L` produces
exactly the `ceil(L / C)` consecutive fixed-width slices of the
message, in order, each at most `C` characters; a zero-length message
produces zero lines. -/
theorem claim_C6_wrap_single_message (b : LogBox) (msg : List Char)
    (off : Int) (hmsgs : b.messages = [msg]) (hc : 0 < b.columns)
    (hbudget : (ceilDiv msg.length b.columns.toNat : Int) ≤ b.lines) :
    b.map_messages_to_lines off = chunks b.columns.toNat msg ∧
    (chunks b.columns.toNat msg).length =
      ceilDiv msg.length b.columns.toNat ∧
    (∀ s ∈ chunks b.columns.toNat msg, s.length ≤ b.columns.toNat) ∧
    (chunks b.columns.toNat msg).flatten = msg ∧
    (msg = [] → b.map_messages_to_lines off = []) := by
  have hct : 0 < b.columns.toNat := by omega
  obtain ⟨hlen, hmem, hjoin⟩ :=
    chunks_spec b.columns.toNat hct msg.length msg (le_refl _)
  have hmain : b.map_messages_to_lines off = chunks b.columns.toNat msg := by
    rw [LogBox.map_messages_to_lines, hmsgs]
    rw [show ([msg] : List (List Char)).reverse = [msg] from rfl]
    by_cases hz : b.lines.toNat = 0
    · have hc0 : ceilDiv msg.length b.columns.toNat = 0 := by omega
      have hL0 : msg.length = 0 := by
        by_contra hne
        have := ceilDiv_pos msg.length b.columns.toNat hct (by omega)
        omega
      have hmsg0 : msg = [] := List.length_eq_zero.mp hL0
      subst hmsg0
      simp [mmtlGo, hz, chunks_nil]
    · have hrem : ceilDiv msg.length b.columns.toNat ≤ b.lines.toNat := by
        omega
      rw [show mmtlGo b.columns b.lines [msg] b.lines.toNat [] =
          mmtlGo b.columns b.lines [] (wrapGo b.columns msg b.lines.toNat []).2
            (appendLeftAll b.lines (wrapGo b.columns msg b.lines.toNat []).1 [])
          from by simp [mmtlGo, hz]]
      rw [wrapGo_chunks b.columns hc b.lines.toNat msg [] hrem]
      simp only [List.nil_append]
      rw [appendLeftAll_of_le b.lines (chunks b.columns.toNat msg) []
        (by simp [hlen]; omega)]
      simp [mmtlGo]
  refine ⟨hmain, hlen, hmem, hjoin, ?_⟩
  intro hmsg0
  rw [hmain, hmsg0, chunks_nil]

/-- C6 witness: the spec's worked example: `LogBox(columns=10, lines=3)`
holding `"abcdefghijklmno"` wraps to the two ten-and-five character
slices within the three-line budget. -/
theorem claim_C6_witness :
    logBoxW.messages = ["abcdefghijklmno".toList] ∧
    (0 < logBoxW.columns) ∧
    ((ceilDiv ("abcdefghijklmno".toList).length logBoxW.columns.toNat : Int) ≤
      logBoxW.lines) ∧
    logBoxW.map_messages_to_lines 1 =
      chunks logBoxW.columns.toNat "abcdefghijklmno".toList := by
  refine ⟨rfl, by norm_num [logBoxW], by decide, ?_⟩
  exact (claim_C6_wrap_single_message logBoxW "abcdefghijklmno".toList 1
    rfl (by norm_num [logBoxW]) (by decide)).1

/-! ### C3: layout placement bounds -/

/-- Python's banker-rounded half is between 0 and the argument. -/
theorem pyround_half_bounds (k : Int) (hk : 0 ≤ k) :
    0 ≤ pyround_half k ∧ pyround_half k ≤ k := by
  unfold pyround_half
  split
  · omega
  · split <;> omega

/-- For the nonnegative operands the layout produces, Python's
`int(a / b)` is Euclidean division. -/
theorem pyintdiv_eq_ediv (a b : Int) (ha : 0 ≤ a) (hb : 0 ≤ b) :
    pyintdiv a b = a / b :=
  Int.div_eq_ediv ha hb

/-- A statically sized box with nonnegative content dimensions has a
nonnegative computed size. -/
theorem compute_size_nonneg (b : LBox) (hb : staticNonneg b = true) :
    0 ≤ (b.compute_size).1 ∧ 0 ≤ (b.compute_size).2 := by
  cases b with
  | fixed h w bo =>
      simp only [staticNonneg, Bool.and_eq_true, decide_eq_true_eq] at hb
      cases bo <;>
        simp [LBox.compute_size, LBox.border, LBox.get_height,
          LBox.get_width] <;>
        omega
  | log c l => simp [staticNonneg] at hb

/-- Row width as width sum plus padding per box. -/
theorem rowWidthOf_eq (padding : Int) (row : List LBox) :
    rowWidthOf padding row =
      (row.map fun b => (b.compute_size).2).sum +
        padding * (row.length : Int) := by
  induction row with
  | nil => simp [rowWidthOf]
  | cons b rest ih =>
      simp only [rowWidthOf, List.map_cons, List.sum_cons,
        List.length_cons] at ih ⊢
      rw [ih]
      push_cast
      ring

/-- Row widths are nonnegative for static boxes and nonnegative padding. -/
theorem rowWidthOf_nonneg (padding : Int) (hpad : 0 ≤ padding)
    (row : List LBox) (hrow : ∀ b ∈ row, staticNonneg b = true) :
    0 ≤ rowWidthOf padding row := by
  apply List.sum_nonneg
  intro a ha
  simp only [List.mem_map] at ha
  obtain ⟨b, hb, rfl⟩ := ha
  have := (compute_size_nonneg b (hrow b hb)).2
  omega

/-- Left fold of `max`: the seed and every element are below the fold. -/
theorem le_foldl_max (l : List Int) :
    ∀ a : Int, a ≤ l.foldl max a ∧ ∀ x ∈ l, x ≤ l.foldl max a := by
  induction l with
  | nil => intro a; exact ⟨le_refl a, by simp⟩
  | cons y ys ih =>
      intro a
      constructor
      · exact le_trans (le_max_left a y) (ih (max a y)).1
      · intro x hx
        rw [List.mem_cons] at hx
        rcases hx with rfl | hx
        · exact le_trans (le_max_right a x) (ih (max a x)).1
        · exact (ih (max a y)).2 x hx

/-- The row height is nonnegative and bounds every box height. -/
theorem rowHeightOf_spec (row : List LBox) :
    0 ≤ rowHeightOf row ∧
      ∀ b ∈ row, (b.compute_size).1 ≤ rowHeightOf row := by
  constructor
  · exact (le_foldl_max _ 0).1
  · intro b hb
    exact (le_foldl_max _ 0).2 _ (List.mem_map_of_mem _ hb)

/-- The boxes of the placements are the positioned boxes, in order. -/
theorem placeRow_boxes (cl rh p2 : Int) :
    ∀ (ps : List (LBox × Int × Int)) (x frw prev : Int),
      (placeRow cl rh p2 ps x frw prev).1.map Prod.fst =
        ps.map Prod.fst := by
  intro ps
  induction ps with
  | nil => intro x frw prev; rfl
  | cons t rest ih =>
      intro x frw prev
      obtain ⟨b, h, w⟩ := t
      simp only [placeRow, List.map_cons]
      rw [ih]

/-- Geometry of the placement loop: starting at a nonnegative `x` whose
span fits the columns, every placed rectangle stays within the terminal
extents. -/
theorem placeRow_bounds (cl rh p2 lines cols : Int)
    (hp2 : 0 ≤ p2) (hcl : 0 ≤ cl) (hrh : cl + rh ≤ lines) :
    ∀ (ps : List (LBox × Int × Int)) (x frw prev : Int),
      0 ≤ x →
      x + (ps.map fun t => t.2.2 + p2).sum ≤ cols + p2 →
      (∀ t ∈ ps, 0 ≤ t.2.2 ∧ 0 ≤ t.2.1 ∧ t.2.1 ≤ rh ∧
        t.2.1 = (t.1.compute_size).1 ∧ t.2.2 = (t.1.compute_size).2) →
      ∀ q ∈ (placeRow cl rh p2 ps x frw prev).1,
        0 ≤ q.2.x ∧ q.2.x + (q.1.compute_size).2 ≤ cols ∧
          0 ≤ q.2.y ∧ q.2.y + (q.1.compute_size).1 ≤ lines := by
  intro ps
  induction ps with
  | nil =>
      intro x frw prev hx hspan hmem q hq
      simp [placeRow] at hq
  | cons t rest ih =>
      intro x frw prev hx hspan hmem q hq
      obtain ⟨b, hh, ww⟩ := t
      simp only [placeRow, List.mem_cons] at hq
      have hrest_nonneg : 0 ≤ (rest.map fun t => t.2.2 + p2).sum := by
        apply List.sum_nonneg
        intro a ha
        simp only [List.mem_map] at ha
        obtain ⟨t', ht', rfl⟩ := ha
        have := (hmem t' (List.mem_cons_of_mem _ ht')).1
        omega
      obtain ⟨hw0, hh0, hhle, hhe, hwe⟩ :=
        hmem (b, hh, ww) (List.mem_cons_self _ _)
      have hw0' : 0 ≤ ww := hw0
      have hh0' : 0 ≤ hh := hh0
      have hhle' : hh ≤ rh := hhle
      have hhe' : hh = (b.compute_size).1 := hhe
      have hwe' : ww = (b.compute_size).2 := hwe
      simp only [List.map_cons, List.sum_cons] at hspan
      rcases hq with rfl | hq
      · have hround := pyround_half_bounds (rh - hh) (by omega)
        refine ⟨?_, ?_, ?_, ?_⟩
        · show 0 ≤ x
          exact hx
        · show x + (b.compute_size).2 ≤ cols
          omega
        · show 0 ≤ cl + pyround_half (rh - hh)
          omega
        · show cl + pyround_half (rh - hh) + (b.compute_size).1 ≤ lines
          omega
      · exact ih (x + ww + p2) _ _ (by omega) (by omega)
          (fun t ht => hmem t (List.mem_cons_of_mem _ ht)) q hq

/-- When every box of the row is static and the summed row width fits
the column budget, the fill loop places every box, spills nothing and
raises nothing. -/
theorem fillRow_no_spill (st : BoxLayoutSt) (hpad : 0 ≤ st.padding) :
    ∀ (row : List LBox) (acc : RowAcc),
      (∀ b ∈ row, staticNonneg b = true) →
      acc.extra = [] →
      acc.row_width + rowWidthOf st.padding row ≤ st.cols →
      fillRow st row acc = .ok
        { positioned := acc.positioned ++
            row.map (fun b => (b, (b.compute_size).1, (b.compute_size).2)),
          extra := [],
          row_width := acc.row_width + rowWidthOf st.padding row,
          unpadded_row_width := acc.unpadded_row_width +
            (row.map fun b => (b.compute_size).2).sum,
          row_height := (row.map fun b => (b.compute_size).1).foldl max
            acc.row_height } := by
  intro row
  induction row with
  | nil =>
      intro acc hstat hext hw
      simp only [fillRow, List.map_nil, List.append_nil, List.foldl_nil,
        List.sum_nil, rowWidthOf]
      rw [← hext]
      simp
  | cons b rest ih =>
      intro acc hstat hext hw
      have hb := hstat b (List.mem_cons_self _ _)
      obtain ⟨hh, ww, bo, rfl⟩ : ∃ hh ww bo, b = LBox.fixed hh ww bo := by
        cases b with
        | fixed hh ww bo => exact ⟨hh, ww, bo, rfl⟩
        | log c l => simp [staticNonneg] at hb
      have hrow_cons : rowWidthOf st.padding (LBox.fixed hh ww bo :: rest) =
          ((LBox.fixed hh ww bo).compute_size.2 + st.padding) +
            rowWidthOf st.padding rest := by
        simp [rowWidthOf]
      have hrest_nonneg : 0 ≤ rowWidthOf st.padding rest :=
        rowWidthOf_nonneg st.padding hpad rest
          (fun b hbm => hstat b (List.mem_cons_of_mem _ hbm))
      have hreq : acc.row_width +
          ((LBox.fixed hh ww bo).compute_size.2 + st.padding) ≤ st.cols := by
        rw [hrow_cons] at hw
        omega
      rw [hrow_cons] at hw
      simp only [fillRow, LBox.resize_for_layout]
      rw [hext]
      rw [if_neg (by simp; omega)]
      rw [if_neg (by omega)]
      have hstep := ih
        { positioned := acc.positioned ++
            [(LBox.fixed hh ww bo, (LBox.fixed hh ww bo).compute_size.1,
              (LBox.fixed hh ww bo).compute_size.2)],
          extra := [],
          row_width := acc.row_width +
            ((LBox.fixed hh ww bo).compute_size.2 + st.padding),
          unpadded_row_width := acc.unpadded_row_width +
            (LBox.fixed hh ww bo).compute_size.2,
          row_height := max acc.row_height
            (LBox.fixed hh ww bo).compute_size.1 }
        (fun b hbm => hstat b (List.mem_cons_of_mem _ hbm)) rfl
        (by show acc.row_width +
              ((LBox.fixed hh ww bo).compute_size.2 + st.padding) +
              rowWidthOf st.padding rest ≤ st.cols
            omega)
      rw [hstep]
      simp only [Except.ok.injEq, RowAcc.mk.injEq]
      refine ⟨by simp, by trivial, ?_, ?_, ?_⟩
      · show acc.row_width +
            ((LBox.fixed hh ww bo).compute_size.2 + st.padding) +
            rowWidthOf st.padding rest =
          acc.row_width +
            rowWidthOf st.padding (LBox.fixed hh ww bo :: rest)
        rw [hrow_cons]
        ring
      · show acc.unpadded_row_width + (LBox.fixed hh ww bo).compute_size.2 +
            (rest.map fun b => (b.compute_size).2).sum =
          acc.unpadded_row_width +
            ((LBox.fixed hh ww bo :: rest).map fun b =>
              (b.compute_size).2).sum
        simp only [List.map_cons, List.sum_cons]
        ring
      · show List.foldl max
            (max acc.row_height (LBox.fixed hh ww bo).compute_size.1)
            (rest.map fun b => (b.compute_size).1) =
          List.foldl max acc.row_height
            ((LBox.fixed hh ww bo :: rest).map fun b => (b.compute_size).1)
        simp only [List.map_cons, List.foldl_cons]

/-- Unfolding: the closing while-loop on an empty row. -/
theorem positionFinish_nil (st : BoxLayoutSt) :
    positionFinish st [] = .ok ([], st) := by
  rw [positionFinish.eq_def]

/-- Unfolding: one iteration of the closing while-loop, successful row. -/
theorem positionFinish_cons_ok (st st' : BoxLayoutSt) (b : LBox)
    (rest extra : List LBox) (pl : List (LBox × Position))
    (h : positionRow st (b :: rest) = .ok (pl, st', extra)) :
    positionFinish st (b :: rest) =
      match positionFinish st' extra with
      | .error e => .error e
      | .ok (pl', st'') => .ok (pl ++ pl', st'') := by
  rw [positionFinish.eq_def]
  split
  next heq => exact absurd heq (by simp)
  next b2 rest2 heq =>
    injection heq with h1 h2
    subst h1
    subst h2
    split
    next e2 heq2 => rw [h] at heq2; exact Except.noConfusion heq2
    next pl2 st2 extra2 heq2 =>
      rw [h] at heq2
      injection heq2 with h3
      simp only [Prod.mk.injEq] at h3
      obtain ⟨rfl, rfl, rfl⟩ := h3
      rfl

/-- Unfolding: one iteration of the closing while-loop, failing row. -/
theorem positionFinish_cons_error (st : BoxLayoutSt) (b : LBox)
    (rest : List LBox) (e : PErr)
    (h : positionRow st (b :: rest) = .error e) :
    positionFinish st (b :: rest) = .error e := by
  rw [positionFinish.eq_def]
  split
  next heq => exact absurd heq (by simp)
  next b2 rest2 heq =>
    injection heq with h1 h2
    subst h1
    subst h2
    split
    next e2 heq2 =>
      rw [h] at heq2
      injection heq2 with h3
      subst h3
      rfl
    next pl2 st2 extra2 heq2 =>
      rw [h] at heq2
      exact Except.noConfusion heq2

/-- The exact successful result of `_position_row` in terms of the
fill-loop's output. -/
theorem positionRow_eq (st : BoxLayoutSt) (row : List LBox)
    (ps : List (LBox × Int × Int)) (extra : List LBox)
    (rw_ up_ rh_ : Int)
    (hfill : fillRow st row
      { positioned := [], extra := [], row_width := 0,
        unpadded_row_width := 0, row_height := 0 } =
      .ok { positioned := ps, extra := extra, row_width := rw_,
            unpadded_row_width := up_, row_height := rh_ })
    (hok : ¬(st.current_line + rh_ > st.lines)) :
    positionRow st row = .ok
      ((placeRow st.current_line rh_
          (pyintdiv (st.cols - up_) ((ps.length : Int) + 1)) ps
          (pyintdiv (st.cols - up_) ((ps.length : Int) + 1) +
            pyintdiv (st.cols - (up_ +
              pyintdiv (st.cols - up_) ((ps.length : Int) + 1) *
                ((ps.length : Int) + 1))) 2)
          0 0).1,
        { st with
          current_line := st.current_line + rh_ + st.padding,
          max_row_width := max st.max_row_width
            (placeRow st.current_line rh_
              (pyintdiv (st.cols - up_) ((ps.length : Int) + 1)) ps
              (pyintdiv (st.cols - up_) ((ps.length : Int) + 1) +
                pyintdiv (st.cols - (up_ +
                  pyintdiv (st.cols - up_) ((ps.length : Int) + 1) *
                    ((ps.length : Int) + 1))) 2)
              0 0).2 },
        extra) := by
  simp only [positionRow, hfill]
  rw [if_neg hok]

/-- A row of static boxes whose summed width fits the columns and whose
height fits the remaining lines is positioned completely: no spill, no
sizing error, `current_line` advanced by `row_height + padding`, and
every placed rectangle within the terminal extents. -/
theorem positionRow_ok (st : BoxLayoutSt) (row : List LBox)
    (hpad : 0 ≤ st.padding) (hcl : 0 ≤ st.current_line)
    (hstat : ∀ b ∈ row, staticNonneg b = true)
    (hw : rowWidthOf st.padding row ≤ st.cols)
    (hv : st.current_line + rowHeightOf row ≤ st.lines) :
    ∃ (pl : List (LBox × Position)) (st' : BoxLayoutSt),
      positionRow st row = .ok (pl, st', []) ∧
      st'.lines = st.lines ∧ st'.cols = st.cols ∧
      st'.padding = st.padding ∧
      st'.current_line = st.current_line + rowHeightOf row + st.padding ∧
      ∀ q ∈ pl, 0 ≤ q.2.x ∧ q.2.x + (q.1.compute_size).2 ≤ st.cols ∧
        0 ≤ q.2.y ∧ q.2.y + (q.1.compute_size).1 ≤ st.lines := by
  have hfill0 := fillRow_no_spill st hpad row
    { positioned := [], extra := [], row_width := 0,
      unpadded_row_width := 0, row_height := 0 }
    hstat rfl (by
      show (0 : Int) + rowWidthOf st.padding row ≤ st.cols
      omega)
  have hfill : fillRow st row
      { positioned := [], extra := [], row_width := 0,
        unpadded_row_width := 0, row_height := 0 } = .ok
      { positioned :=
          row.map fun b => (b, (b.compute_size).1, (b.compute_size).2),
        extra := [],
        row_width := rowWidthOf st.padding row,
        unpadded_row_width := (row.map fun b => (b.compute_size).2).sum,
        row_height := rowHeightOf row } := by
    rw [hfill0]
    simp [rowHeightOf]
  have hpr := positionRow_eq st row
    (row.map fun b => (b, (b.compute_size).1, (b.compute_size).2)) []
    (rowWidthOf st.padding row)
    ((row.map fun b => (b.compute_size).2).sum)
    (rowHeightOf row) hfill (by omega)
  refine ⟨_, _, hpr, rfl, rfl, rfl, rfl, ?_⟩
  -- arithmetic facts about the computed padding and starting column
  have hlen : ((row.map fun b =>
      (b, (b.compute_size).1, (b.compute_size).2)).length : Int) =
      (row.length : Int) := by
    simp
  have hSW_nonneg : 0 ≤ (row.map fun b => (b.compute_size).2).sum := by
    apply List.sum_nonneg
    intro a ha
    simp only [List.mem_map] at ha
    obtain ⟨b, hb, rfl⟩ := ha
    exact (compute_size_nonneg b (hstat b hb)).2
  have hmul_pad : 0 ≤ st.padding * (row.length : Int) :=
    mul_nonneg hpad (Int.natCast_nonneg _)
  have hSW_le : (row.map fun b => (b.compute_size).2).sum ≤ st.cols := by
    have := rowWidthOf_eq st.padding row
    omega
  have hp2 : 0 ≤ pyintdiv
      (st.cols - (row.map fun b => (b.compute_size).2).sum)
      (((row.map fun b =>
        (b, (b.compute_size).1, (b.compute_size).2)).length : Int) + 1) := by
    rw [hlen, pyintdiv_eq_ediv _ _ (by omega) (by omega)]
    exact Int.ediv_nonneg (by omega) (by omega)
  have hple : pyintdiv
      (st.cols - (row.map fun b => (b.compute_size).2).sum)
      (((row.map fun b =>
        (b, (b.compute_size).1, (b.compute_size).2)).length : Int) + 1) *
      (((row.map fun b =>
        (b, (b.compute_size).1, (b.compute_size).2)).length : Int) + 1) ≤
      st.cols - (row.map fun b => (b.compute_size).2).sum := by
    rw [hlen, pyintdiv_eq_ediv _ _ (by omega) (by omega)]
    exact Int.ediv_mul_le _ (by omega)
  apply placeRow_bounds st.current_line (rowHeightOf row) _ st.lines st.cols
    hp2 hcl hv
  · -- 0 ≤ starting x
    have ht : 0 ≤ pyintdiv (st.cols -
        ((row.map fun b => (b.compute_size).2).sum +
          pyintdiv (st.cols - (row.map fun b => (b.compute_size).2).sum)
            (((row.map fun b =>
              (b, (b.compute_size).1, (b.compute_size).2)).length : Int) + 1) *
            (((row.map fun b =>
              (b, (b.compute_size).1, (b.compute_size).2)).length : Int) + 1)))
        2 := by
      rw [pyintdiv_eq_ediv _ _ (by omega) (by omega)]
      exact Int.ediv_nonneg (by omega) (by omega)
    omega
  · -- the span from the starting x fits the columns
    have hsum : ((row.map fun b =>
        (b, (b.compute_size).1, (b.compute_size).2)).map fun t =>
          t.2.2 + pyintdiv
            (st.cols - (row.map fun b => (b.compute_size).2).sum)
            (((row.map fun b =>
              (b, (b.compute_size).1, (b.compute_size).2)).length : Int) + 1)).sum =
        rowWidthOf (pyintdiv
          (st.cols - (row.map fun b => (b.compute_size).2).sum)
          (((row.map fun b =>
            (b, (b.compute_size).1, (b.compute_size).2)).length : Int) + 1)) row := by
      rw [List.map_map]
      rfl
    rw [hsum, rowWidthOf_eq]
    have hdist : pyintdiv
        (st.cols - (row.map fun b => (b.compute_size).2).sum)
        (((row.map fun b =>
          (b, (b.compute_size).1, (b.compute_size).2)).length : Int) + 1) *
        (((row.map fun b =>
          (b, (b.compute_size).1, (b.compute_size).2)).length : Int) + 1) =
        pyintdiv (st.cols - (row.map fun b => (b.compute_size).2).sum)
          (((row.map fun b =>
            (b, (b.compute_size).1, (b.compute_size).2)).length : Int) + 1) *
          (row.length : Int) +
        pyintdiv (st.cols - (row.map fun b => (b.compute_size).2).sum)
          (((row.map fun b =>
            (b, (b.compute_size).1, (b.compute_size).2)).length : Int) + 1) := by
      rw [hlen]
      ring
    have ht2 : pyintdiv (st.cols -
        ((row.map fun b => (b.compute_size).2).sum +
          pyintdiv (st.cols - (row.map fun b => (b.compute_size).2).sum)
            (((row.map fun b =>
              (b, (b.compute_size).1, (b.compute_size).2)).length : Int) + 1) *
            (((row.map fun b =>
              (b, (b.compute_size).1, (b.compute_size).2)).length : Int) + 1)))
        2 ≤ st.cols -
        ((row.map fun b => (b.compute_size).2).sum +
          pyintdiv (st.cols - (row.map fun b => (b.compute_size).2).sum)
            (((row.map fun b =>
              (b, (b.compute_size).1, (b.compute_size).2)).length : Int) + 1) *
            (((row.map fun b =>
              (b, (b.compute_size).1, (b.compute_size).2)).length : Int) + 1)) := by
      rw [pyintdiv_eq_ediv _ _ (by omega) (by omega)]
      exact Int.ediv_le_self _ (by omega)
    omega
  · -- per-box facts fed to the placement loop
    intro t ht
    simp only [List.mem_map] at ht
    obtain ⟨b, hb, rfl⟩ := ht
    exact ⟨(compute_size_nonneg b (hstat b hb)).2,
      (compute_size_nonneg b (hstat b hb)).1,
      (rowHeightOf_spec row).2 b hb, rfl, rfl⟩

/-- Master run of `position`: when every processed row fits the column
budget and the stacked row heights fit the vertical budget, the walk
over the content list succeeds and every placement is in bounds. -/
theorem positionGo_ok (lines cols padding : Int) (hpad : 0 ≤ padding) :
    ∀ (items : List (Option LBox)) (row : List LBox) (st : BoxLayoutSt),
      st.lines = lines → st.cols = cols → st.padding = padding →
      0 ≤ st.current_line →
      (∀ b ∈ row, staticNonneg b = true) →
      (∀ b ∈ items.filterMap id, staticNonneg b = true) →
      (∀ r ∈ processedRows items row, rowWidthOf padding r ≤ cols) →
      vertFits lines padding st.current_line
        (processedRows items row) = true →
      ∃ (pl : List (LBox × Position)) (st' : BoxLayoutSt),
        positionGo st items row = .ok (pl, st') ∧
        ∀ q ∈ pl, 0 ≤ q.2.x ∧ q.2.x + (q.1.compute_size).2 ≤ cols ∧
          0 ≤ q.2.y ∧ q.2.y + (q.1.compute_size).1 ≤ lines := by
  intro items
  induction items with
  | nil =>
      intro row st hlines hcols hpads hcl hrowstat _ hwidth hvert
      cases row with
      | nil =>
          exact ⟨[], st, positionFinish_nil st, by simp⟩
      | cons b rest =>
          have hrow1 : processedRows ([] : List (Option LBox)) (b :: rest) =
              [b :: rest] := by simp [processedRows]
          rw [hrow1] at hwidth hvert
          simp only [vertFits, Bool.and_eq_true, decide_eq_true_eq] at hvert
          obtain ⟨pl, st', hpr, _, _, _, _, hbounds⟩ :=
            positionRow_ok st (b :: rest) (by omega) hcl hrowstat
              (by rw [hpads, hcols]; exact hwidth _ (by simp))
              (by rw [hlines]; exact hvert.1)
          refine ⟨pl, st', ?_, ?_⟩
          · show positionFinish st (b :: rest) = .ok (pl, st')
            rw [positionFinish_cons_ok st st' b rest [] pl hpr,
              positionFinish_nil]
            simp
          · intro q hq
            have := hbounds q hq
            rw [hcols, hlines] at this
            exact this
  | cons o items ih =>
      intro row st hlines hcols hpads hcl hrowstat hitemstat hwidth hvert
      cases o with
      | none =>
          have hrow1 : processedRows (none :: items) row =
              row :: processedRows items [] := rfl
          rw [hrow1] at hwidth hvert
          simp only [vertFits, Bool.and_eq_true, decide_eq_true_eq] at hvert
          obtain ⟨pl1, st', hpr, hl', hc', hp', hcl', hbounds1⟩ :=
            positionRow_ok st row (by omega) hcl hrowstat
              (by rw [hpads, hcols]; exact hwidth _ (by simp))
              (by rw [hlines]; exact hvert.1)
          obtain ⟨pl2, st'', hgo, hbounds2⟩ :=
            ih [] st' (by rw [hl', hlines]) (by rw [hc', hcols])
              (by rw [hp', hpads])
              (by have hrh0 := (rowHeightOf_spec row).1
                  rw [hcl']
                  omega)
              (by simp)
              (by simpa using hitemstat)
              (fun r hr => hwidth r (List.mem_cons_of_mem _ hr))
              (by rw [hcl', hpads]
                  exact hvert.2)
          refine ⟨pl1 ++ pl2, st'', ?_, ?_⟩
          · show positionGo st (none :: items) row = .ok (pl1 ++ pl2, st'')
            simp only [positionGo, hpr, hgo]
          · intro q hq
            rw [List.mem_append] at hq
            rcases hq with hq | hq
            · have := hbounds1 q hq
              rw [hcols, hlines] at this
              exact this
            · exact hbounds2 q hq
      | some b =>
          have hb : staticNonneg b = true := by
            apply hitemstat
            simp
          obtain ⟨pl, st', hgo, hbounds⟩ :=
            ih (row ++ [b]) st hlines hcols hpads hcl
              (by intro x hx
                  rw [List.mem_append] at hx
                  rcases hx with hx | hx
                  · exact hrowstat x hx
                  · simp at hx
                    subst hx
                    exact hb)
              (by intro x hx
                  apply hitemstat
                  simp [hx])
              (by intro r hr
                  exact hwidth r (by simpa [processedRows] using hr))
              (by simpa [processedRows] using hvert)
          exact ⟨pl, st', hgo, hbounds⟩

/-- C3 counterexample: the claim as stated is false.  A single bordered
box of content height 3 and width 5 satisfies the claim's only
precondition (summed minimum row width, 7 + 1 padding = 8, is well
within 80 columns), yet on a 2-line terminal `BoxLayout.position`
raises the `Insufficient lines available` sizing error instead of
terminating without error. -/
theorem claim_C3_counterexample :
    (∀ r ∈ processedRows [some (LBox.fixed 3 5 true)] [],
      rowWidthOf 1 r ≤ 80) ∧
    BoxLayout.position 2 80 1 [some (LBox.fixed 3 5 true)] =
      .error .insufficientLines := by
  constructor
  · decide
  · show positionGo
      { lines := 2, cols := 80, padding := 1, current_line := 0,
        max_row_width := 0 } [some (LBox.fixed 3 5 true)] [] = _
    rw [show positionGo
        { lines := 2, cols := 80, padding := 1, current_line := 0,
          max_row_width := 0 } [some (LBox.fixed 3 5 true)] [] =
      positionFinish
        { lines := 2, cols := 80, padding := 1, current_line := 0,
          max_row_width := 0 } [LBox.fixed 3 5 true] from rfl]
    exact positionFinish_cons_error _ _ _ _ rfl

/-- C3 (amended): for every ordered list of statically sized boxes with
nonnegative dimensions (row breaks allowed, padding ≥ 0) whose
per-processed-row summed minimum width (each box's computed width plus
one padding) is at most the available columns AND whose stacked row
heights (each row's tallest computed box, separated by the vertical
padding, as the algorithm checks them) fit within the available lines,
`BoxLayout.position` terminates without a sizing error and every box is
assigned a rectangle with 0 ≤ x, x + width ≤ cols, 0 ≤ y,
y + height ≤ lines. -/
theorem claim_C3_position_within_bounds (lines cols padding : Int)
    (content : List (Option LBox)) (hpad : 0 ≤ padding)
    (hstat : ∀ b ∈ content.filterMap id, staticNonneg b = true)
    (hwidth : ∀ r ∈ processedRows content [], rowWidthOf padding r ≤ cols)
    (hvert : vertFits lines padding 0 (processedRows content []) = true) :
    ∃ (pl : List (LBox × Position)) (st' : BoxLayoutSt),
      BoxLayout.position lines cols padding content = .ok (pl, st') ∧
      ∀ q ∈ pl, 0 ≤ q.2.x ∧ q.2.x + (q.1.compute_size).2 ≤ cols ∧
        0 ≤ q.2.y ∧ q.2.y + (q.1.compute_size).1 ≤ lines :=
  positionGo_ok lines cols padding hpad content []
    { lines := lines, cols := cols, padding := padding,
      current_line := 0, max_row_width := 0 }
    rfl rfl rfl (le_refl 0) (by simp) hstat hwidth hvert

/-- C3 witness: a single bordered 1-by-3 box on a 20-by-40 terminal with
padding 1 satisfies the amended hypotheses and is placed in bounds. -/
theorem claim_C3_witness :
    (0 ≤ (1 : Int)) ∧
    (∀ b ∈ ([some (LBox.fixed 1 3 true)] : List (Option LBox)).filterMap id,
      staticNonneg b = true) ∧
    (∀ r ∈ processedRows [some (LBox.fixed 1 3 true)] [],
      rowWidthOf 1 r ≤ 40) ∧
    (vertFits 20 1 0 (processedRows [some (LBox.fixed 1 3 true)] []) =
      true) ∧
    ∃ (pl : List (LBox × Position)) (st' : BoxLayoutSt),
      BoxLayout.position 20 40 1 [some (LBox.fixed 1 3 true)] =
        .ok (pl, st') ∧
      ∀ q ∈ pl, 0 ≤ q.2.x ∧ q.2.x + (q.1.compute_size).2 ≤ 40 ∧
        0 ≤ q.2.y ∧ q.2.y + (q.1.compute_size).1 ≤ 20 := by
  refine ⟨by norm_num, by decide, by decide, by decide, ?_⟩
  exact claim_C3_position_within_bounds 20 40 1 [some (LBox.fixed 1 3 true)]
    (by norm_num) (by decide) (by decide) (by decide)

/-! ### C4: resize idempotence -/

/-- `resize_for_layout` ignores the LogBox's current dimensions: boxes
that agree after `eraseDyn` get identical results. -/
theorem resize_for_layout_congr (props : LayoutProperties) {b c : LBox}
    (h : eraseDyn b = eraseDyn c) :
    LBox.resize_for_layout props b = LBox.resize_for_layout props c := by
  cases b <;> cases c <;> simp [eraseDyn] at h <;>
    simp [LBox.resize_for_layout, h]

/-- A successful `resize_for_layout` only rewrites the dynamic log
dimensions. -/
theorem resize_for_layout_erase {props : LayoutProperties} {b b' : LBox}
    (h : LBox.resize_for_layout props b = .ok b') :
    eraseDyn b' = eraseDyn b := by
  cases b with
  | fixed hh ww bo =>
      simp only [LBox.resize_for_layout, Except.ok.injEq] at h
      rw [← h]
  | log c l =>
      simp only [LBox.resize_for_layout] at h
      split at h
      · exact Except.noConfusion h
      · simp only [Except.ok.injEq] at h
        rw [← h]
        rfl

/-- The fill loop is determined by the boxes up to `eraseDyn`. -/
theorem fillRow_congr (st : BoxLayoutSt) :
    ∀ (l l' : List LBox) (acc : RowAcc),
      l.map eraseDyn = l'.map eraseDyn →
      fillRow st l acc = fillRow st l' acc := by
  intro l
  induction l with
  | nil =>
      intro l' acc h
      have hl' : l' = [] := by
        cases l' with
        | nil => rfl
        | cons c t' => simp at h
      subst hl'
      rfl
  | cons b t ih =>
      intro l' acc h
      cases l' with
      | nil => simp at h
      | cons c t' =>
          simp only [List.map_cons, List.cons.injEq] at h
          obtain ⟨hbc, htt⟩ := h
          simp only [fillRow]
          rw [resize_for_layout_congr st.get_layout_properties hbc]
          cases hres : LBox.resize_for_layout st.get_layout_properties c with
          | error e => simp only [hres]
          | ok b' =>
              simp only [hres]
              apply if_congr Iff.rfl
              · exact ih t' _ htt
              · apply if_congr Iff.rfl rfl
                exact ih t' _ htt

/-- A successful fill splits the input row into a placed prefix and a
spilled suffix, box for box up to `eraseDyn`; once something has
spilled, nothing further is placed. -/
theorem fillRow_erase (st : BoxLayoutSt) :
    ∀ (l : List LBox) (acc acc' : RowAcc),
      (acc.extra ≠ [] → acc.positioned ≠ []) →
      fillRow st l acc = .ok acc' →
      ∃ P E, acc'.positioned = acc.positioned ++ P ∧
        acc'.extra = acc.extra ++ E ∧
        P.map (fun t => eraseDyn t.1) ++ E.map eraseDyn = l.map eraseDyn ∧
        (acc.extra ≠ [] → P = []) := by
  intro l
  induction l with
  | nil =>
      intro acc acc' hinv h
      simp only [fillRow] at h
      cases h
      exact ⟨[], [], by simp, by simp, by simp, fun _ => rfl⟩
  | cons b t ih =>
      intro acc acc' hinv h
      simp only [fillRow] at h
      split at h
      · simp at h
      next b' hres =>
        split at h
        next hcond =>
          have hpos_ne : acc.positioned ≠ [] := by
            intro hnil
            rw [hnil] at hcond
            simp at hcond
          obtain ⟨P, E, hpp, hee, hmaps, hPnil⟩ :=
            ih { acc with extra := acc.extra ++ [b'] } acc'
              (fun _ => hpos_ne) h
          have hpp' : acc'.positioned = acc.positioned ++ P := hpp
          have hee' : acc'.extra = (acc.extra ++ [b']) ++ E := hee
          have hP : P = [] := hPnil
            (by show acc.extra ++ [b'] ≠ []; simp)
          subst hP
          refine ⟨[], b' :: E, by simpa using hpp', ?_, ?_, fun _ => rfl⟩
          · rw [hee']
            simp
          · simp only [List.map_cons, List.nil_append,
              List.map_nil] at hmaps ⊢
            rw [resize_for_layout_erase hres]
            rw [← hmaps]
        next hcond =>
          split at h
          · simp at h
          · obtain ⟨P, E, hpp, hee, hmaps, _⟩ :=
              ih { acc with
                    row_width := acc.row_width +
                      ((b'.compute_size).2 + st.padding),
                    unpadded_row_width := acc.unpadded_row_width +
                      (b'.compute_size).2,
                    row_height := max acc.row_height (b'.compute_size).1,
                    positioned := acc.positioned ++
                      [(b', (b'.compute_size).1, (b'.compute_size).2)] }
                acc'
                (by intro _
                    show acc.positioned ++
                      [(b', (b'.compute_size).1, (b'.compute_size).2)] ≠ []
                    simp)
                h
            have hpp' : acc'.positioned = (acc.positioned ++
                [(b', (b'.compute_size).1, (b'.compute_size).2)]) ++ P := hpp
            have hee' : acc'.extra = acc.extra ++ E := hee
            refine ⟨(b', (b'.compute_size).1, (b'.compute_size).2) :: P, E,
              ?_, ?_, ?_, ?_⟩
            · rw [hpp']
              simp
            · rw [hee']
            · simp only [List.map_cons, List.cons_append,
                List.map_cons] at hmaps ⊢
              rw [resize_for_layout_erase hres]
              rw [hmaps]
            · intro hne
              exfalso
              apply hcond
              refine ⟨?_, Or.inl ?_⟩
              · have := hinv hne
                intro hzero
                exact this (List.eq_nil_of_length_eq_zero hzero)
              · intro hzero
                exact hne (List.eq_nil_of_length_eq_zero hzero)

/-- `_position_row` is determined by the boxes up to `eraseDyn`. -/
theorem positionRow_congr (st : BoxLayoutSt) (row row' : List LBox)
    (h : row.map eraseDyn = row'.map eraseDyn) :
    positionRow st row = positionRow st row' := by
  simp only [positionRow]
  rw [fillRow_congr st row row' _ h]

/-- A successful `_position_row` distributes the row's boxes over the
placements and the spill, in order, up to `eraseDyn`. -/
theorem positionRow_erase (st : BoxLayoutSt) (row : List LBox)
    (pl : List (LBox × Position)) (st' : BoxLayoutSt) (extra : List LBox)
    (h : positionRow st row = .ok (pl, st', extra)) :
    pl.map (fun q => eraseDyn q.1) ++ extra.map eraseDyn =
      row.map eraseDyn := by
  simp only [positionRow] at h
  split at h
  · simp at h
  next acc hfill =>
    split at h
    · simp at h
    · simp only [Except.ok.injEq, Prod.mk.injEq] at h
      obtain ⟨hpl, _, hextra⟩ := h
      obtain ⟨P, E, hpos, hext, hmaps, _⟩ :=
        fillRow_erase st row _ acc (by intro hcontra; simp at hcontra) hfill
      have hpos' : acc.positioned = P := by simpa using hpos
      have hext' : acc.extra = E := by simpa using hext
      have hplmap : pl.map (fun q => eraseDyn q.1) =
          acc.positioned.map (fun t => eraseDyn t.1) := by
        rw [← hpl]
        have hfst := placeRow_boxes st.current_line acc.row_height
          (pyintdiv (st.cols - acc.unpadded_row_width)
            ((acc.positioned.length : Int) + 1))
          acc.positioned
          (pyintdiv (st.cols - acc.unpadded_row_width)
              ((acc.positioned.length : Int) + 1) +
            pyintdiv (st.cols - (acc.unpadded_row_width +
              pyintdiv (st.cols - acc.unpadded_row_width)
                  ((acc.positioned.length : Int) + 1) *
                ((acc.positioned.length : Int) + 1))) 2)
          0 0
        have h1 := congrArg (List.map eraseDyn) hfst
        simpa [Function.comp] using h1
      rw [hplmap, ← hextra, hpos', hext', hmaps]

/-- The closing while-loop is determined by the boxes up to
`eraseDyn`. -/
theorem positionFinish_congr (st : BoxLayoutSt) (row row' : List LBox)
    (h : row.map eraseDyn = row'.map eraseDyn) :
    positionFinish st row = positionFinish st row' := by
  cases row with
  | nil =>
      have hrow' : row' = [] := by
        cases row' with
        | nil => rfl
        | cons c t' => simp at h
      subst hrow'
      rfl
  | cons b t =>
      cases row' with
      | nil => simp at h
      | cons c t' =>
          have hrowcongr := positionRow_congr st (b :: t) (c :: t') h
          cases hpr : positionRow st (b :: t) with
          | error e =>
              rw [positionFinish_cons_error st b t e hpr,
                positionFinish_cons_error st c t' e
                  (by rw [← hrowcongr]; exact hpr)]
          | ok res =>
              obtain ⟨pl, st', extra⟩ := res
              rw [positionFinish_cons_ok st st' b t extra pl hpr,
                positionFinish_cons_ok st st' c t' extra pl
                  (by rw [← hrowcongr]; exact hpr)]

/-- A successful closing while-loop places exactly the row's boxes, in
order, up to `eraseDyn`. -/
theorem positionFinish_erase :
    ∀ (n : Nat) (st : BoxLayoutSt) (row : List LBox)
      (pl : List (LBox × Position)) (st' : BoxLayoutSt),
      row.length ≤ n →
      positionFinish st row = .ok (pl, st') →
      pl.map (fun q => eraseDyn q.1) = row.map eraseDyn := by
  intro n
  induction n with
  | zero =>
      intro st row pl st' hlen h
      have hrow : row = [] :=
        List.eq_nil_of_length_eq_zero (by omega)
      subst hrow
      rw [positionFinish_nil] at h
      simp only [Except.ok.injEq, Prod.mk.injEq] at h
      rw [← h.1]
      simp
  | succ n ihn =>
      intro st row pl st' hlen h
      cases row with
      | nil =>
          rw [positionFinish_nil] at h
          simp only [Except.ok.injEq, Prod.mk.injEq] at h
          rw [← h.1]
          simp
      | cons b t =>
          cases hpr : positionRow st (b :: t) with
          | error e =>
              rw [positionFinish_cons_error st b t e hpr] at h
              exact Except.noConfusion h
          | ok res =>
              obtain ⟨pl1, st1, extra⟩ := res
              rw [positionFinish_cons_ok st st1 b t extra pl1 hpr] at h
              cases hfin : positionFinish st1 extra with
              | error e => simp [hfin] at h
              | ok res2 =>
                  obtain ⟨pl2, st2⟩ := res2
                  simp only [hfin, Except.ok.injEq, Prod.mk.injEq] at h
                  obtain ⟨hpl, -⟩ := h
                  have hlt := positionRow_extra_length st b t pl1 st1
                    extra hpr
                  have hrec := ihn st1 extra pl2 st2
                    (by simp at hlen; omega) hfin
                  have hrow := positionRow_erase st (b :: t) pl1 st1
                    extra hpr
                  rw [← hpl, List.map_append, hrec, ← hrow]

/-- The content walk is determined by the boxes up to `eraseDyn`. -/
theorem positionGo_congr (st : BoxLayoutSt) :
    ∀ (items items' : List (Option LBox)) (row row' : List LBox),
      items.map (Option.map eraseDyn) = items'.map (Option.map eraseDyn) →
      row.map eraseDyn = row'.map eraseDyn →
      positionGo st items row = positionGo st items' row' := by
  intro items
  induction items generalizing st with
  | nil =>
      intro items' row row' hitems hrow
      have hitems' : items' = [] := by
        cases items' with
        | nil => rfl
        | cons o t => simp at hitems
      subst hitems'
      exact positionFinish_congr st row row' hrow
  | cons o items ih =>
      intro items' row row' hitems hrow
      cases items' with
      | nil => simp at hitems
      | cons o' items2 =>
          simp only [List.map_cons, List.cons.injEq] at hitems
          obtain ⟨ho, hrest⟩ := hitems
          cases o with
          | none =>
              cases o' with
              | some c => simp [Option.map] at ho
              | none =>
                  have hrowcongr := positionRow_congr st row row' hrow
                  simp only [positionGo]
                  rw [hrowcongr]
                  cases hpr : positionRow st row' with
                  | error e => simp only [hpr]
                  | ok res =>
                      obtain ⟨pl1, st1, extra⟩ := res
                      simp only [hpr]
                      rw [ih st1 items2 extra extra hrest rfl]
          | some b =>
              cases o' with
              | none => simp [Option.map] at ho
              | some c =>
                  simp only [Option.map] at ho
                  injection ho with hbc
                  simp only [positionGo]
                  apply ih st items2 (row ++ [b]) (row' ++ [c]) hrest
                  simp only [List.map_append, List.map_cons, List.map_nil,
                    hrow, hbc]

/-- A successful content walk places exactly the pending row followed by
the remaining boxes, in order, up to `eraseDyn`. -/
theorem positionGo_erase (st : BoxLayoutSt) :
    ∀ (items : List (Option LBox)) (row : List LBox)
      (pl : List (LBox × Position)) (st' : BoxLayoutSt),
      positionGo st items row = .ok (pl, st') →
      pl.map (fun q => eraseDyn q.1) =
        row.map eraseDyn ++ (items.filterMap id).map eraseDyn := by
  intro items
  induction items generalizing st with
  | nil =>
      intro row pl st' h
      have := positionFinish_erase row.length st row pl st' (le_refl _) h
      simpa using this
  | cons o items ih =>
      intro row pl st' h
      cases o with
      | none =>
          simp only [positionGo] at h
          cases hpr : positionRow st row with
          | error e => simp [hpr] at h
          | ok res =>
              obtain ⟨pl1, st1, extra⟩ := res
              simp only [hpr] at h
              cases hgo : positionGo st1 items extra with
              | error e => simp [hgo] at h
              | ok res2 =>
                  obtain ⟨pl2, st2⟩ := res2
                  simp only [hgo, Except.ok.injEq, Prod.mk.injEq] at h
                  obtain ⟨hpl, -⟩ := h
                  have hrow := positionRow_erase st row pl1 st1 extra hpr
                  have hrec := ih st1 extra pl2 st2 hgo
                  rw [← hpl, List.map_append, hrec, List.filterMap_cons]
                  simp only [id]
                  rw [← List.append_assoc, hrow]
      | some b =>
          simp only [positionGo] at h
          have hrec := ih st (row ++ [b]) pl st' h
          rw [hrec, List.filterMap_cons]
          simp [id]

/-- Writing back boxes that agree with the originals up to `eraseDyn`
preserves the content list up to `eraseDyn`. -/
theorem updateBoxes_erase :
    ∀ (content : List (Option LBox)) (bs : List LBox),
      bs.map eraseDyn = (content.filterMap id).map eraseDyn →
      (updateBoxes content bs).map (Option.map eraseDyn) =
        content.map (Option.map eraseDyn) := by
  intro content
  induction content with
  | nil => intro bs h; rfl
  | cons o rest ih =>
      intro bs h
      cases o with
      | none =>
          simp only [List.filterMap_cons] at h
          simp only [updateBoxes, List.map_cons]
          rw [ih bs (by simpa [id] using h)]
      | some b =>
          rw [List.filterMap_cons] at h
          simp only [id] at h
          cases bs with
          | nil => simp at h
          | cons c cs =>
              simp only [List.map_cons, List.cons.injEq] at h
              obtain ⟨hcb, hrest⟩ := h
              simp only [updateBoxes, List.map_cons, Option.map]
              rw [hcb, ih cs hrest]

/-- Writing the same boxes back twice is the same as writing them once. -/
theorem updateBoxes_idem :
    ∀ (content : List (Option LBox)) (bs : List LBox),
      bs.length = (content.filterMap id).length →
      updateBoxes (updateBoxes content bs) bs = updateBoxes content bs := by
  intro content
  induction content with
  | nil => intro bs h; rfl
  | cons o rest ih =>
      intro bs h
      cases o with
      | none =>
          simp only [updateBoxes]
          rw [ih bs (by simpa [List.filterMap_cons, id] using h)]
      | some b =>
          cases bs with
          | nil =>
              rw [List.filterMap_cons] at h
              simp [id] at h
          | cons c cs =>
              simp only [updateBoxes]
              rw [ih cs (by
                rw [List.filterMap_cons] at h
                simpa [id] using h)]

/-- C4: `BoxLayout.resize` is idempotent: a second `resize` to the same
`(lines, cols)` reproduces exactly the same boxes, positions,
`current_line` and `max_row_width` as the first. -/
theorem claim_C4_resize_idempotent (lines cols padding : Int)
    (content content' : List (Option LBox))
    (pl : List (LBox × Position)) (st' : BoxLayoutSt)
    (h : BoxLayout.resize lines cols padding content =
      .ok (content', pl, st')) :
    BoxLayout.resize lines cols padding content' =
      .ok (content', pl, st') := by
  simp only [BoxLayout.resize] at h
  cases hpos : BoxLayout.position lines cols padding content with
  | error e => simp [hpos] at h
  | ok res =>
      obtain ⟨pl0, st0⟩ := res
      simp only [hpos, Except.ok.injEq, Prod.mk.injEq] at h
      obtain ⟨hcontent', hpl, hst⟩ := h
      rw [hpl] at hcontent'
      rw [hpl, hst] at hpos
      have herase : pl.map (fun q => eraseDyn q.1) =
          (content.filterMap id).map eraseDyn := by
        have := positionGo_erase
          { lines := lines, cols := cols, padding := padding,
            current_line := 0, max_row_width := 0 }
          content [] pl st' hpos
        simpa using this
      have hbs : (pl.map Prod.fst).map eraseDyn =
          (content.filterMap id).map eraseDyn := by
        rw [List.map_map]
        simpa [Function.comp] using herase
      have hupd : (updateBoxes content (pl.map Prod.fst)).map
          (Option.map eraseDyn) = content.map (Option.map eraseDyn) :=
        updateBoxes_erase content (pl.map Prod.fst) hbs
      have hlen : (pl.map Prod.fst).length =
          (content.filterMap id).length := by
        have := congrArg List.length hbs
        simpa using this
      have hpos' : BoxLayout.position lines cols padding
          (updateBoxes content (pl.map Prod.fst)) = .ok (pl, st') := by
        rw [show BoxLayout.position lines cols padding
            (updateBoxes content (pl.map Prod.fst)) =
          BoxLayout.position lines cols padding content from
          positionGo_congr _ _ content [] [] hupd rfl]
        exact hpos
      subst hcontent'
      simp only [BoxLayout.resize, hpos', Except.ok.injEq,
        Prod.mk.injEq]
      exact ⟨updateBoxes_idem content (pl.map Prod.fst) hlen, trivial⟩

/-- C4 witness: a bordered 1-by-3 box, a row break and a log box on a
20-by-40 terminal: the first resize assigns the log box its dynamic
size; resizing again to the same extents reproduces boxes, positions,
`current_line` and `max_row_width` exactly. -/
theorem claim_C4_witness :
    BoxLayout.resize 20 40 1
        [some (LBox.fixed 1 3 true), none, some (LBox.log 10 5)] =
      .ok ([some (LBox.fixed 1 3 true), none, some (LBox.log 3 14)],
        [(LBox.fixed 1 3 true, { y := 0, x := 17 }),
         (LBox.log 3 14, { y := 4, x := 17 })],
        { lines := 20, cols := 40, padding := 1, current_line := 21,
          max_row_width := 5 }) ∧
    BoxLayout.resize 20 40 1
        [some (LBox.fixed 1 3 true), none, some (LBox.log 3 14)] =
      .ok ([some (LBox.fixed 1 3 true), none, some (LBox.log 3 14)],
        [(LBox.fixed 1 3 true, { y := 0, x := 17 }),
         (LBox.log 3 14, { y := 4, x := 17 })],
        { lines := 20, cols := 40, padding := 1, current_line := 21,
          max_row_width := 5 }) := by
  have hfin : positionFinish
      { lines := 20, cols := 40, padding := 1, current_line := 4,
        max_row_width := 5 } [LBox.log 10 5] =
      .ok ([(LBox.log 3 14, { y := 4, x := 17 })],
        { lines := 20, cols := 40, padding := 1, current_line := 21,
          max_row_width := 5 }) := by
    rw [positionFinish_cons_ok
        { lines := 20, cols := 40, padding := 1, current_line := 4,
          max_row_width := 5 }
        { lines := 20, cols := 40, padding := 1, current_line := 21,
          max_row_width := 5 } (LBox.log 10 5) [] []
        [(LBox.log 3 14, { y := 4, x := 17 })] rfl,
      positionFinish_nil]
    rfl
  have hrow1 : positionRow
      { lines := 20, cols := 40, padding := 1, current_line := 0,
        max_row_width := 0 } [LBox.fixed 1 3 true] =
      .ok ([(LBox.fixed 1 3 true, { y := 0, x := 17 })],
        { lines := 20, cols := 40, padding := 1, current_line := 4,
          max_row_width := 5 }, []) := rfl
  have hgo : positionGo
      { lines := 20, cols := 40, padding := 1, current_line := 0,
        max_row_width := 0 }
      [some (LBox.fixed 1 3 true), none, some (LBox.log 10 5)] [] =
      .ok ([(LBox.fixed 1 3 true, { y := 0, x := 17 }),
            (LBox.log 3 14, { y := 4, x := 17 })],
        { lines := 20, cols := 40, padding := 1, current_line := 21,
          max_row_width := 5 }) := by
    simp only [positionGo, List.nil_append, hrow1, hfin]
    rfl
  have h1 : BoxLayout.resize 20 40 1
      [some (LBox.fixed 1 3 true), none, some (LBox.log 10 5)] =
      .ok ([some (LBox.fixed 1 3 true), none, some (LBox.log 3 14)],
        [(LBox.fixed 1 3 true, { y := 0, x := 17 }),
         (LBox.log 3 14, { y := 4, x := 17 })],
        { lines := 20, cols := 40, padding := 1, current_line := 21,
          max_row_width := 5 }) := by
    simp only [BoxLayout.resize, BoxLayout.position, hgo]
    rfl
  exact ⟨h1, claim_C4_resize_idempotent 20 40 1 _ _ _ _ h1⟩

/-! ### C2: resize ordering in the display controller -/

/-- C2 counterexample: the claim as stated is false.  Shrinking the
terminal of a display holding one metric-width box (content width 39,
41 with borders) to 10 columns makes the layout reflow raise
`Insufficient columns available`; the call aborts before
`curses.resizeterm`, so this call resizes the terminal surface zero
times and performs no re-render, refuting "in every call the terminal
surface is resized exactly once and a full re-render follows". -/
theorem claim_C2_counterexample :
    (({ lines := 24, columns := 10 } : TermSize).columns <
      displayA.terminal_size.columns) ∧
    ProgressDisplay.resize displayA [some (LBox.fixed 1 39 true)] 1
        { lines := 24, columns := 10 } =
      ([], { displayA with
              terminal_size := { lines := 24, columns := 10 } },
        .error .insufficientColumns) ∧
    (ProgressDisplay.resize displayA [some (LBox.fixed 1 39 true)] 1
        { lines := 24, columns := 10 }).1.count TermOp.resizeTerm = 0 := by
  have hlay : BoxLayout.resize 24 10 1 [some (LBox.fixed 1 39 true)] =
      .error .insufficientColumns := by
    simp only [BoxLayout.resize, BoxLayout.position]
    rw [show positionGo
        { lines := 24, cols := 10, padding := 1, current_line := 0,
          max_row_width := 0 } [some (LBox.fixed 1 39 true)] [] =
      positionFinish
        { lines := 24, cols := 10, padding := 1, current_line := 0,
          max_row_width := 0 } [LBox.fixed 1 39 true] from rfl]
    rw [positionFinish_cons_error
        { lines := 24, cols := 10, padding := 1, current_line := 0,
          max_row_width := 0 } (LBox.fixed 1 39 true) []
        .insufficientColumns rfl]
  have hcall : ProgressDisplay.resize displayA [some (LBox.fixed 1 39 true)]
      1 { lines := 24, columns := 10 } =
      ([], { displayA with
              terminal_size := { lines := 24, columns := 10 } },
        .error .insufficientColumns) := by
    simp only [ProgressDisplay.resize]
    rw [if_pos (by decide), hlay]
  refine ⟨by decide, hcall, ?_⟩
  rw [hcall]
  rfl

/-- C2 (amended): the newly measured size is recorded in every call;
in every call that completes (the layout reflow raises no sizing
error) the reflow precedes `curses.resizeterm` exactly when the new
width is smaller than the previously recorded width, the terminal
surface is resized exactly once, and a full re-render
(update_content, then noutrefresh/doupdate) closes the call; a call
aborted by a reflow sizing error has performed no surface operation at
all on the shrink path, and exactly the surface operations but no
re-render on the non-shrink path. -/
theorem claim_C2_resize_orders_reflow_and_surface (d : Display)
    (content : List (Option LBox)) (padding : Int) (measured : TermSize) :
    ((ProgressDisplay.resize d content padding measured).2.1 =
      { d with terminal_size := measured }) ∧
    (∀ (tr : List TermOp) (d' : Display) (content' : List (Option LBox)),
      ProgressDisplay.resize d content padding measured =
        (tr, d', .ok content') →
      tr.count TermOp.resizeTerm = 1 ∧
      tr.count TermOp.reflowLayout = 1 ∧
      (tr.indexOf TermOp.reflowLayout < tr.indexOf TermOp.resizeTerm ↔
        measured.columns < d.terminal_size.columns) ∧
      tr.indexOf TermOp.resizeTerm < tr.indexOf TermOp.updateContent ∧
      tr.drop (tr.length - 3) =
        [TermOp.updateContent, TermOp.noutRefresh, TermOp.doUpdate]) ∧
    (∀ (tr : List TermOp) (d' : Display) (e : PErr),
      ProgressDisplay.resize d content padding measured =
        (tr, d', .error e) →
      (measured.columns < d.terminal_size.columns → tr = []) ∧
      (¬measured.columns < d.terminal_size.columns →
        tr = [TermOp.resizeTerm, TermOp.eraseScreen, TermOp.refreshScreen,
          TermOp.resizeWindow])) := by
  by_cases hs : measured.columns < d.terminal_size.columns <;>
    [simp only [ProgressDisplay.resize, if_pos hs];
     simp only [ProgressDisplay.resize, if_neg hs]] <;>
    cases hlay : BoxLayout.resize measured.lines measured.columns padding
      content <;>
    simp only [hlay]
  · refine ⟨by trivial, ?_, ?_⟩
    · intro tr d' content' h
      simp only [Prod.mk.injEq] at h
      exact Except.noConfusion h.2.2
    · intro tr d' e h
      simp only [Prod.mk.injEq] at h
      rw [← h.1]
      exact ⟨fun _ => rfl, fun hns => absurd hs hns⟩
  next res =>
    obtain ⟨content', pl, st⟩ := res
    refine ⟨by trivial, ?_, ?_⟩
    · intro tr d' content2 h
      simp only [Prod.mk.injEq] at h
      rw [← h.1]
      exact ⟨by decide, by decide, iff_of_true (by decide) hs,
        by decide, by decide⟩
    · intro tr d' e h
      simp only [Prod.mk.injEq] at h
      exact Except.noConfusion h.2.2
  · refine ⟨by trivial, ?_, ?_⟩
    · intro tr d' content' h
      simp only [Prod.mk.injEq] at h
      exact Except.noConfusion h.2.2
    · intro tr d' e h
      simp only [Prod.mk.injEq] at h
      rw [← h.1]
      exact ⟨fun hx => absurd hx hs, fun _ => rfl⟩
  next res =>
    obtain ⟨content', pl, st⟩ := res
    refine ⟨by trivial, ?_, ?_⟩
    · intro tr d' content2 h
      simp only [Prod.mk.injEq] at h
      rw [← h.1]
      exact ⟨by decide, by decide, iff_of_false (by decide) hs,
        by decide, by decide⟩
    · intro tr d' e h
      simp only [Prod.mk.injEq] at h
      exact Except.noConfusion h.2.2

/-- C2 witness: a completing shrink-resize at concrete input: one
bordered 1-by-3 box, 80 to 60 columns; the reflow comes first, the
surface is resized exactly once, and the re-render closes the call. -/
theorem claim_C2_witness :
    (ProgressDisplay.resize displayA [some (LBox.fixed 1 3 true)] 1
        { lines := 24, columns := 60 } =
      ([TermOp.reflowLayout, TermOp.resizeTerm, TermOp.eraseScreen,
        TermOp.refreshScreen, TermOp.resizeWindow, TermOp.updateContent,
        TermOp.noutRefresh, TermOp.doUpdate],
        { displayA with terminal_size := { lines := 24, columns := 60 } },
        .ok [some (LBox.fixed 1 3 true)])) ∧
    (([TermOp.reflowLayout, TermOp.resizeTerm, TermOp.eraseScreen,
        TermOp.refreshScreen, TermOp.resizeWindow, TermOp.updateContent,
        TermOp.noutRefresh, TermOp.doUpdate] : List TermOp).count
        TermOp.resizeTerm = 1 ∧
      ([TermOp.reflowLayout, TermOp.resizeTerm, TermOp.eraseScreen,
        TermOp.refreshScreen, TermOp.resizeWindow, TermOp.updateContent,
        TermOp.noutRefresh, TermOp.doUpdate] : List TermOp).count
        TermOp.reflowLayout = 1 ∧
      (([TermOp.reflowLayout, TermOp.resizeTerm, TermOp.eraseScreen,
          TermOp.refreshScreen, TermOp.resizeWindow, TermOp.updateContent,
          TermOp.noutRefresh, TermOp.doUpdate] : List TermOp).indexOf
          TermOp.reflowLayout <
        ([TermOp.reflowLayout, TermOp.resizeTerm, TermOp.eraseScreen,
          TermOp.refreshScreen, TermOp.resizeWindow, TermOp.updateContent,
          TermOp.noutRefresh, TermOp.doUpdate] : List TermOp).indexOf
          TermOp.resizeTerm ↔
        ({ lines := 24, columns := 60 } : TermSize).columns <
          displayA.terminal_size.columns) ∧
      ([TermOp.reflowLayout, TermOp.resizeTerm, TermOp.eraseScreen,
        TermOp.refreshScreen, TermOp.resizeWindow, TermOp.updateContent,
        TermOp.noutRefresh, TermOp.doUpdate] : List TermOp).indexOf
        TermOp.resizeTerm <
      ([TermOp.reflowLayout, TermOp.resizeTerm, TermOp.eraseScreen,
        TermOp.refreshScreen, TermOp.resizeWindow, TermOp.updateContent,
        TermOp.noutRefresh, TermOp.doUpdate] : List TermOp).indexOf
        TermOp.updateContent ∧
      ([TermOp.reflowLayout, TermOp.resizeTerm, TermOp.eraseScreen,
        TermOp.refreshScreen, TermOp.resizeWindow, TermOp.updateContent,
        TermOp.noutRefresh, TermOp.doUpdate] : List TermOp).drop
        (([TermOp.reflowLayout, TermOp.resizeTerm, TermOp.eraseScreen,
          TermOp.refreshScreen, TermOp.resizeWindow, TermOp.updateContent,
          TermOp.noutRefresh, TermOp.doUpdate] : List TermOp).length - 3) =
        [TermOp.updateContent, TermOp.noutRefresh, TermOp.doUpdate]) := by
  have hfin : positionFinish
      { lines := 24, cols := 60, padding := 1, current_line := 0,
        max_row_width := 0 } [LBox.fixed 1 3 true] =
      .ok ([(LBox.fixed 1 3 true, { y := 0, x := 27 })],
        { lines := 24, cols := 60, padding := 1, current_line := 4,
          max_row_width := 5 }) := by
    rw [positionFinish_cons_ok
        { lines := 24, cols := 60, padding := 1, current_line := 0,
          max_row_width := 0 }
        { lines := 24, cols := 60, padding := 1, current_line := 4,
          max_row_width := 5 } (LBox.fixed 1 3 true) [] []
        [(LBox.fixed 1 3 true, { y := 0, x := 27 })] rfl,
      positionFinish_nil]
    rfl
  have hlay : BoxLayout.resize 24 60 1 [some (LBox.fixed 1 3 true)] =
      .ok ([some (LBox.fixed 1 3 true)],
        [(LBox.fixed 1 3 true, { y := 0, x := 27 })],
        { lines := 24, cols := 60, padding := 1, current_line := 4,
          max_row_width := 5 }) := by
    simp only [BoxLayout.resize, BoxLayout.position]
    rw [show positionGo
        { lines := 24, cols := 60, padding := 1, current_line := 0,
          max_row_width := 0 } [some (LBox.fixed 1 3 true)] [] =
      positionFinish
        { lines := 24, cols := 60, padding := 1, current_line := 0,
          max_row_width := 0 } [LBox.fixed 1 3 true] from rfl]
    rw [hfin]
    rfl
  have hcomp : ProgressDisplay.resize displayA [some (LBox.fixed 1 3 true)]
      1 { lines := 24, columns := 60 } =
      ([TermOp.reflowLayout, TermOp.resizeTerm, TermOp.eraseScreen,
        TermOp.refreshScreen, TermOp.resizeWindow, TermOp.updateContent,
        TermOp.noutRefresh, TermOp.doUpdate],
        { displayA with terminal_size := { lines := 24, columns := 60 } },
        .ok [some (LBox.fixed 1 3 true)]) := by
    simp only [ProgressDisplay.resize]
    rw [if_pos (by decide), hlay]
  exact ⟨hcomp, (claim_C2_resize_orders_reflow_and_surface displayA
    [some (LBox.fixed 1 3 true)] 1 { lines := 24, columns := 60 }).2.1
    _ _ _ hcomp⟩

end ScanProgress
